import Mathlib

/-!
Verification development for the Arduino_Route_Finder repository.

The repository implements a directed graph keyed by vertex data
(`src/graph.py`, and an older coordinate-keyed variant in
`src/Archive/graph_old3.py`), two reachability searches, a connected
component counter, a Euclidean edge cost function (`src/cost.py`), and a
Dijkstra-style least-cost path solver (`src/server_new.py`).

This file gives a shallow embedding of those functions and proves or
refutes the frozen claims about them.

Modelling conventions:
* Python dicts become association lists kept in insertion order
  (`alook` = `d[k]` lookup, `aupd` = in-place update of an existing key,
  `aset` = `d[k] = v` assignment, `apop` = `d.pop(k)`).
* Python floats become exact rationals `ℚ`; `float("inf")` becomes the
  `none` case of `CostV := Option ℚ`.
* A raised exception (`TypeError` from iterating `None`, `KeyError`,
  `ValueError`) is modelled by an explicit `crash`-style result.
* `while` loops become fuel-indexed structural recursions; a distinct
  `out` result marks fuel exhaustion, and lemmas show the chosen fuel is
  sufficient wherever a claim needs it.
-/

namespace RouteFinder

/-! ### Association-list primitives (Python dict semantics) -/

/-- Dict lookup: `alook l k` is `l[k]` for an insertion-ordered dict: the value of the
first binding of `k`, or `none` when `k` is not a key. -/
def alook {κ α : Type} [DecidableEq κ] : List (κ × α) → κ → Option α
  | [], _ => none
  | (k, a) :: t, x => if k = x then some a else alook t x

/-- Dict in-place update: `aupd l k f` applies `f` to the value of the first binding of `k`,
keeping its position (a Python in-place update of an existing key). -/
def aupd {κ α : Type} [DecidableEq κ] : List (κ × α) → κ → (α → α) → List (κ × α)
  | [], _, _ => []
  | (k, a) :: t, x, f => if k = x then (k, f a) :: t else (k, a) :: aupd t x f

/-- Dict assignment: `aset l k v` is `l[k] = v`: update in place when
the key exists, append at the end when it is new. -/
def aset {κ α : Type} [DecidableEq κ] : List (κ × α) → κ → α → List (κ × α)
  | [], k, v => [(k, v)]
  | (k', a) :: t, k, v => if k' = k then (k, v) :: t else (k', a) :: aset t k v

/-- Dict removal: `apop l k` is `l.pop(k)`: the removed value and the remaining list,
or `none` when the key is absent (Python raises `KeyError`). -/
def apop {κ α : Type} [DecidableEq κ] : List (κ × α) → κ → Option (α × List (κ × α))
  | [], _ => none
  | (k, a) :: t, x =>
    if k = x then some (a, t)
    else (apop t x).map (fun r => (r.1, (k, a) :: r.2))

/-- First-occurrence removal, Python's `list.remove` (callers in the
source only invoke it after a membership test). -/
def eraseFirst {α : Type} [DecidableEq α] : List α → α → List α
  | [], _ => []
  | a :: t, x => if a = x then t else a :: eraseFirst t x

theorem alook_none_iff {κ α : Type} [DecidableEq κ] (l : List (κ × α)) (k : κ) :
    alook l k = none ↔ k ∉ l.map Prod.fst := by
  induction l with
  | nil => simp [alook]
  | cons h t ih =>
    obtain ⟨k', a⟩ := h
    by_cases hk : k' = k
    · simp [alook, hk]
    · simp only [alook, if_neg hk, ih, List.map_cons, List.mem_cons]
      constructor
      · intro h1
        rintro (h2 | h2)
        · exact hk h2.symm
        · exact h1 h2
      · intro h1 h2
        exact h1 (Or.inr h2)

theorem alook_isSome_iff {κ α : Type} [DecidableEq κ] (l : List (κ × α)) (k : κ) :
    (alook l k).isSome = true ↔ k ∈ l.map Prod.fst := by
  rw [Option.isSome_iff_ne_none, ne_eq, alook_none_iff]
  simp

theorem alook_append {κ α : Type} [DecidableEq κ] (l₁ l₂ : List (κ × α)) (k : κ) :
    alook (l₁ ++ l₂) k = ((alook l₁ k).rec (alook l₂ k) fun a => some a) := by
  induction l₁ with
  | nil => simp [alook]
  | cons h t ih =>
    obtain ⟨k', a⟩ := h
    by_cases hk : k' = k <;> simp [alook, hk, ih]

theorem alook_append_of_none {κ α : Type} [DecidableEq κ] {l₁ : List (κ × α)}
    (l₂ : List (κ × α)) {k : κ} (h : alook l₁ k = none) :
    alook (l₁ ++ l₂) k = alook l₂ k := by
  rw [alook_append, h]

theorem alook_append_of_some {κ α : Type} [DecidableEq κ] {l₁ : List (κ × α)}
    (l₂ : List (κ × α)) {k : κ} {a : α} (h : alook l₁ k = some a) :
    alook (l₁ ++ l₂) k = some a := by
  rw [alook_append, h]

theorem alook_mem {κ α : Type} [DecidableEq κ] {l : List (κ × α)} {k : κ} {a : α}
    (h : alook l k = some a) : (k, a) ∈ l := by
  induction l with
  | nil => simp [alook] at h
  | cons hd t ih =>
    obtain ⟨k', b⟩ := hd
    by_cases hk : k' = k
    · subst hk
      simp [alook] at h
      simp [h]
    · simp [alook, hk] at h
      simp [ih h]

theorem mem_alook_of_nodup {κ α : Type} [DecidableEq κ] {l : List (κ × α)} {k : κ} {a : α}
    (hnd : (l.map Prod.fst).Nodup) (h : (k, a) ∈ l) : alook l k = some a := by
  induction l with
  | nil => simp at h
  | cons hd t ih =>
    obtain ⟨k', b⟩ := hd
    simp only [List.map_cons, List.nodup_cons] at hnd
    rcases List.mem_cons.mp h with h1 | h1
    · obtain ⟨hk, ha⟩ := Prod.mk.injEq .. ▸ h1
      simp [alook, hk.symm, ha]
    · have hk : k' ≠ k := by
        intro he
        exact hnd.1 (he ▸ (List.mem_map.mpr ⟨(k, a), h1, rfl⟩))
      simp [alook, hk, ih hnd.2 h1]

/-! ### The graph of `src/graph.py`

Vertices are integer ids; each dict entry holds the coordinate tuple and
the mutable list of out-neighbour ids.  Latitude/longitude floats are
modelled as exact rationals. -/

/-- A coordinate pair (latitude, longitude). -/
abbrev Coord : Type := ℚ × ℚ

/-- The `Graph` class of `src/graph.py`: `_map_data` is a dict from vertex
id to `[(lat, lon), [neighbour ids]]`, kept in insertion order. -/
structure Graph where
  mapData : List (Nat × (Coord × List Nat))
deriving DecidableEq

namespace Graph

/-- Model of `add_vertex` in `src/graph.py`: insert the id with an empty adjacency
list when new, otherwise update the stored coordinates in place.
The argument tuple is `(latitude, longitude, id)`. -/
def add_vertex (g : Graph) (v : ℚ × ℚ × Nat) : Graph :=
  if alook g.mapData v.2.2 = none then
    ⟨g.mapData ++ [(v.2.2, ((v.1, v.2.1), []))]⟩
  else
    ⟨aupd g.mapData v.2.2 (fun ent => ((v.1, v.2.1), ent.2))⟩

/-- Model of `add_edge` in `src/graph.py`: append `e.2` to the adjacency list of
`e.1` when both endpoints are existing vertices, otherwise do nothing. -/
def add_edge (g : Graph) (e : Nat × Nat) : Graph :=
  if (alook g.mapData e.1).isSome && (alook g.mapData e.2).isSome then
    ⟨aupd g.mapData e.1 (fun ent => (ent.1, ent.2 ++ [e.2]))⟩
  else g

/-- Model of `neighbours` in `src/graph.py`: `None` (here `none`) when the vertex
is absent, otherwise a copy of its adjacency list. -/
def neighbours (g : Graph) (v : Nat) : Option (List Nat) :=
  (alook g.mapData v).map (fun ent => ent.2)

/-- Model of `vertices` in `src/graph.py`: the source returns the set of dict keys; the model
keeps them as the insertion-ordered key list. -/
def vertices (g : Graph) : List Nat :=
  g.mapData.map Prod.fst

/-- Model of `is_vertex` in `src/graph.py`: membership of `v` among the dict keys. -/
def is_vertex (g : Graph) (v : Nat) : Bool :=
  (alook g.mapData v).isSome

/-- Model of `is_edge` in `src/graph.py`: false when the source vertex is absent,
otherwise membership of `e.2` in the adjacency list of `e.1`. -/
def is_edge (g : Graph) (e : Nat × Nat) : Bool :=
  match alook g.mapData e.1 with
  | none => false
  | some ent => e.2 ∈ ent.2

end Graph

/-- Model of `is_walk` in `src/graph.py`: every listed node is a vertex, the list
is nonempty, and every consecutive pair is an edge. -/
def is_walk (g : Graph) (walk : List Nat) : Bool :=
  walk.all (fun v => g.is_vertex v) && !walk.isEmpty &&
    (walk.zip walk.tail).all (fun e => g.is_edge e)

/-- Class invariant of `Graph`: dict keys are unique (Python dicts cannot
repeat keys) and every stored neighbour is itself a key (`add_edge` only
links existing vertices). -/
def WFGraph (g : Graph) : Prop :=
  (g.mapData.map Prod.fst).Nodup ∧
    ∀ ent ∈ g.mapData, ∀ w ∈ ent.2.2, (alook g.mapData w).isSome = true

instance (g : Graph) : Decidable (WFGraph g) := by
  unfold WFGraph
  infer_instance

/-! ### Walks, reachability, shortest hop counts -/

/-- Walk relation: `WalkLen g u v n` holds when there is a walk of `n` edges from `u` to
`v` along `is_edge` steps (the notion `is_walk` of `src/graph.py` checks). -/
inductive WalkLen (g : Graph) : Nat → Nat → ℕ → Prop
  | nil (v : Nat) : WalkLen g v v 0
  | cons {u v w : Nat} {n : ℕ} :
      g.is_edge (u, v) = true → WalkLen g v w n → WalkLen g u w (n + 1)

/-- Reachability: `v` can be reached from `s` by some walk. -/
def Reachable (g : Graph) (s v : Nat) : Prop := ∃ n, WalkLen g s v n

/-- Minimality: `n` is the minimum number of edges over all walks from `s` to `v`. -/
def MinDist (g : Graph) (s v : Nat) (n : ℕ) : Prop :=
  WalkLen g s v n ∧ ∀ k, WalkLen g s v k → n ≤ k

theorem minDist_self (g : Graph) (v : Nat) : MinDist g v v 0 :=
  ⟨WalkLen.nil v, fun k _ => Nat.zero_le k⟩

theorem minDist_unique {g : Graph} {s v : Nat} {n m : ℕ}
    (h1 : MinDist g s v n) (h2 : MinDist g s v m) : n = m :=
  Nat.le_antisymm (h1.2 m h2.1) (h2.2 n h1.1)

theorem minDist_exists {g : Graph} {s v : Nat} (h : Reachable g s v) :
    ∃ n, MinDist g s v n := by
  obtain ⟨n, hn⟩ := h
  induction n using Nat.strong_induction_on with
  | _ n ih =>
    by_cases hmin : ∀ k, WalkLen g s v k → n ≤ k
    · exact ⟨n, hn, hmin⟩
    · push_neg at hmin
      obtain ⟨k, hk, hlt⟩ := hmin
      exact ih k hlt hk

/-- A walk of positive length decomposes at its last edge. -/
theorem walkLen_snoc {g : Graph} {s v : Nat} {n : ℕ}
    (h : WalkLen g s v (n + 1)) :
    ∃ q, WalkLen g s q n ∧ g.is_edge (q, v) = true := by
  induction n generalizing s with
  | zero =>
    cases h with
    | cons he hw =>
      cases hw
      exact ⟨s, WalkLen.nil s, he⟩
  | succ m ih =>
    cases h with
    | cons he hw =>
      obtain ⟨q, hq, hqe⟩ := ih hw
      exact ⟨q, WalkLen.cons he hq, hqe⟩

/-- Appending one edge to a walk. -/
theorem walkLen_append_edge {g : Graph} {s q v : Nat} {n : ℕ}
    (h : WalkLen g s q n) (he : g.is_edge (q, v) = true) :
    WalkLen g s v (n + 1) := by
  induction h with
  | nil => exact WalkLen.cons he (WalkLen.nil v)
  | cons he' _ ih => exact WalkLen.cons he' (ih he)

/-- A vertex at minimum distance `n + 1` has a predecessor at minimum
distance exactly `n`. -/
theorem minDist_pred {g : Graph} {s v : Nat} {n : ℕ}
    (h : MinDist g s v (n + 1)) :
    ∃ q, MinDist g s q n ∧ g.is_edge (q, v) = true := by
  obtain ⟨q, hq, hqe⟩ := walkLen_snoc h.1
  refine ⟨q, ⟨hq, fun k hk => ?_⟩, hqe⟩
  by_contra hlt
  push_neg at hlt
  have : WalkLen g s v (k + 1) := walkLen_append_edge hk hqe
  have := h.2 (k + 1) this
  omega

theorem minDist_zero {g : Graph} {s v : Nat} (h : MinDist g s v 0) : v = s := by
  cases h.1
  rfl

/-- An edge lowers the minimum distance of its head to at most one more
than that of its tail. -/
theorem minDist_succ_le {g : Graph} {s q v : Nat} {n m : ℕ}
    (hq : MinDist g s q n) (he : g.is_edge (q, v) = true)
    (hv : MinDist g s v m) : m ≤ n + 1 :=
  hv.2 (n + 1) (walkLen_append_edge hq.1 he)

/-- The edge test in terms of `neighbours`. -/
theorem is_edge_iff_neighbours {g : Graph} {u v : Nat} :
    g.is_edge (u, v) = true ↔ ∃ nbrs, g.neighbours u = some nbrs ∧ v ∈ nbrs := by
  unfold Graph.is_edge Graph.neighbours
  cases h : alook g.mapData u with
  | none => simp
  | some ent => simp

/-! ### The two reachability searches of `src/graph.py`

`breadth_first_search` uses LIFO discipline (`deque.pop` from the right:
a stack) and `depth_first_search` uses FIFO discipline (`deque.popleft`:
a queue) — the names in the source are swapped relative to the usual
terminology, and the claims refer to disciplines, not names.

Both return `reached`, a dict mapping each reached node to its discovery
predecessor.  Iterating `g.neighbours(node)` when the node is absent
raises `TypeError` in Python (`None` is not iterable); that is the
`crash` result. -/

/-- Result of a search: fuel ran out (never, for the fuel we supply),
a raised `TypeError`, or the final `reached` dict. -/
inductive SRes
  | out
  | crash
  | done (m : List (Nat × Nat))
deriving DecidableEq

/-- The queue-discipline loop of `depth_first_search`: pop the front
entry, skip it when already reached, otherwise record its predecessor
and push all its out-neighbours at the back. -/
def dfsAux (g : Graph) : ℕ → List (Nat × Nat) → List (Nat × Nat) → SRes
  | 0, _, _ => .out
  | _ + 1, reached, [] => .done reached
  | fuel + 1, reached, (node, prev) :: rest =>
    if (alook reached node).isSome then dfsAux g fuel reached rest
    else
      match g.neighbours node with
      | none => .crash
      | some nbrs =>
        dfsAux g fuel (reached ++ [(node, prev)])
          (rest ++ nbrs.map (fun nb => (nb, node)))

/-- The stack-discipline loop of `breadth_first_search`; the head of the
list is the top of the stack, so pushed neighbours are reversed. -/
def stackAux (g : Graph) : ℕ → List (Nat × Nat) → List (Nat × Nat) → SRes
  | 0, _, _ => .out
  | _ + 1, reached, [] => .done reached
  | fuel + 1, reached, (node, prev) :: rest =>
    if (alook reached node).isSome then stackAux g fuel reached rest
    else
      match g.neighbours node with
      | none => .crash
      | some nbrs =>
        stackAux g fuel (reached ++ [(node, prev)])
          ((nbrs.map (fun nb => (nb, node))).reverse ++ rest)

/-- Total number of stored adjacency entries. -/
def Graph.adjTotal (g : Graph) : ℕ :=
  (g.mapData.map (fun ent => ent.2.2.length)).sum

/-- Fuel that strictly dominates the loop measure, so the search always
finishes before exhausting it. -/
def searchFuel (g : Graph) : ℕ :=
  (g.mapData.length + 1) * (g.adjTotal + 1) + 2

/-- Model of `depth_first_search` in `src/graph.py` (queue discipline). -/
def depth_first_search (g : Graph) (start : Nat) : SRes :=
  dfsAux g (searchFuel g) [] [(start, start)]

/-- Model of `breadth_first_search` in `src/graph.py` (stack discipline). -/
def breadth_first_search (g : Graph) (start : Nat) : SRes :=
  stackAux g (searchFuel g) [] [(start, start)]

/-! ### Further association-list lemmas -/

theorem map_fst_aupd {κ α : Type} [DecidableEq κ] (l : List (κ × α)) (k : κ) (f : α → α) :
    (aupd l k f).map Prod.fst = l.map Prod.fst := by
  induction l with
  | nil => rfl
  | cons h t ih =>
    obtain ⟨k', a⟩ := h
    by_cases hk : k' = k <;> simp [aupd, hk, ih]

theorem alook_aupd_self {κ α : Type} [DecidableEq κ] {l : List (κ × α)} {k : κ} {a : α}
    (f : α → α) (h : alook l k = some a) : alook (aupd l k f) k = some (f a) := by
  induction l with
  | nil => simp [alook] at h
  | cons hd t ih =>
    obtain ⟨k', b⟩ := hd
    by_cases hk : k' = k
    · subst hk
      simp [alook] at h
      simp [aupd, alook, h]
    · simp [alook, hk] at h
      simp [aupd, alook, hk, ih h]

theorem alook_aupd_of_ne {κ α : Type} [DecidableEq κ] (l : List (κ × α)) {j k : κ}
    (f : α → α) (h : j ≠ k) : alook (aupd l k f) j = alook l j := by
  induction l with
  | nil => rfl
  | cons hd t ih =>
    obtain ⟨k', b⟩ := hd
    by_cases hk : k' = k
    · subst hk
      have hj : ¬(k' = j) := fun he => h he.symm
      simp [aupd, alook, hj]
    · simp [aupd, hk, alook, ih]

theorem aupd_of_alook_none {κ α : Type} [DecidableEq κ] {l : List (κ × α)} {k : κ}
    (f : α → α) (h : alook l k = none) : aupd l k f = l := by
  induction l with
  | nil => rfl
  | cons hd t ih =>
    obtain ⟨k', b⟩ := hd
    by_cases hk : k' = k
    · simp [alook, hk] at h
    · simp [alook, hk] at h
      simp [aupd, hk, ih h]

theorem mem_aupd {κ α : Type} [DecidableEq κ] {l : List (κ × α)} {k : κ} {f : α → α}
    {ent : κ × α} (h : ent ∈ aupd l k f) :
    ent ∈ l ∨ ∃ a, alook l k = some a ∧ ent = (k, f a) := by
  induction l with
  | nil => simp [aupd] at h
  | cons hd t ih =>
    obtain ⟨k', b⟩ := hd
    by_cases hk : k' = k
    · subst hk
      simp [aupd] at h
      rcases h with h | h
      · exact Or.inr ⟨b, by simp [alook], h⟩
      · exact Or.inl (List.mem_cons_of_mem _ h)
    · simp [aupd, hk] at h
      rcases h with h | h
      · exact Or.inl (by simp [h])
      · rcases ih h with h1 | ⟨a, ha, he⟩
        · exact Or.inl (List.mem_cons_of_mem _ h1)
        · exact Or.inr ⟨a, by simp [alook, hk, ha], he⟩

/-! ### The `Graph` class invariant is maintained by its mutators -/

theorem wfGraph_empty : WFGraph ⟨[]⟩ := by
  constructor
  · exact List.nodup_nil
  · intro ent h
    simp at h

theorem wfGraph_add_vertex {g : Graph} (h : WFGraph g) (v : ℚ × ℚ × Nat) :
    WFGraph (g.add_vertex v) := by
  obtain ⟨hnd, hcl⟩ := h
  unfold Graph.add_vertex
  by_cases hm : alook g.mapData v.2.2 = none
  · simp only [if_pos hm]
    constructor
    · simp only [List.map_append, List.map_cons, List.map_nil]
      refine List.Nodup.append hnd (List.nodup_singleton _) ?_
      intro a ha hb
      simp at hb
      subst hb
      exact (alook_none_iff _ _).mp hm ha
    · intro ent hent w hw
      rcases List.mem_append.mp hent with hent | hent
      · have := hcl ent hent w hw
        rw [alook_append]
        cases hx : alook g.mapData w
        · rw [hx] at this; simp at this
        · simp
      · simp at hent
        rw [hent] at hw
        simp at hw
  · simp only [if_neg hm]
    constructor
    · rw [map_fst_aupd]; exact hnd
    · intro ent hent w hw
      have hkeys : ∀ u : Nat,
          (alook (aupd g.mapData v.2.2 (fun ent => ((v.1, v.2.1), ent.2))) u).isSome =
            (alook g.mapData u).isSome := by
        intro u
        by_cases hu : u = v.2.2
        · subst hu
          cases hx : alook g.mapData v.2.2 with
          | none => exact absurd hx hm
          | some a => simp [alook_aupd_self _ hx, hx]
        · rw [alook_aupd_of_ne _ _ hu]
      rw [hkeys]
      rcases mem_aupd hent with hent | ⟨a, ha, he⟩
      · exact hcl ent hent w hw
      · subst he
        simp at hw
        exact hcl (v.2.2, a) (alook_mem ha) w hw

theorem wfGraph_add_edge {g : Graph} (h : WFGraph g) (e : Nat × Nat) :
    WFGraph (g.add_edge e) := by
  obtain ⟨hnd, hcl⟩ := h
  unfold Graph.add_edge
  by_cases hm : ((alook g.mapData e.1).isSome && (alook g.mapData e.2).isSome) = true
  · simp only [if_pos hm]
    have h2 : (alook g.mapData e.2).isSome = true := by
      simp only [Bool.and_eq_true] at hm
      exact hm.2
    constructor
    · rw [map_fst_aupd]; exact hnd
    · intro ent hent w hw
      have hkeys : ∀ u : Nat,
          (alook (aupd g.mapData e.1 (fun ent => (ent.1, ent.2 ++ [e.2]))) u).isSome =
            (alook g.mapData u).isSome := by
        intro u
        by_cases hu : u = e.1
        · subst hu
          cases hx : alook g.mapData e.1 with
          | none => rw [aupd_of_alook_none _ hx, hx]
          | some a => simp [alook_aupd_self _ hx, hx]
        · rw [alook_aupd_of_ne _ _ hu]
      rw [hkeys]
      rcases mem_aupd hent with hent | ⟨a, ha, he⟩
      · exact hcl ent hent w hw
      · subst he
        simp at hw
        rcases hw with hw | hw
        · exact hcl (e.1, a) (alook_mem ha) w hw
        · rw [hw]; exact h2
  · simp only [if_neg hm]
    exact ⟨hnd, hcl⟩

/-! ### Claim C7: the `neighbours` sentinel -/

/-- C7: for every graph and vertex query, `neighbours` returns the
not-found sentinel (`none`) iff `is_vertex` is false, and when
`is_vertex` is true it returns a (possibly empty) list, distinguishable
from the sentinel. -/
theorem neighbours_sentinel_iff_not_vertex (g : Graph) (u : Nat) :
    (g.neighbours u = none ↔ g.is_vertex u = false) ∧
      (g.is_vertex u = true → ∃ l, g.neighbours u = some l) := by
  unfold Graph.neighbours Graph.is_vertex
  cases h : alook g.mapData u with
  | none => simp
  | some ent => simp

/-- Witness for C7 at a concrete graph: a one-vertex graph, queried at
its vertex and at an absent vertex. -/
theorem neighbours_sentinel_iff_not_vertex_witness :
    ((Graph.mk [(1, ((0, 0), []))]).neighbours 2 = none ↔
        (Graph.mk [(1, ((0, 0), []))]).is_vertex 2 = false) ∧
      ((Graph.mk [(1, ((0, 0), []))]).is_vertex 1 = true →
        ∃ l, (Graph.mk [(1, ((0, 0), []))]).neighbours 1 = some l) :=
  ⟨(neighbours_sentinel_iff_not_vertex ⟨[(1, ((0, 0), []))]⟩ 2).1,
    (neighbours_sentinel_iff_not_vertex ⟨[(1, ((0, 0), []))]⟩ 1).2⟩

/-! ### Claim C3: searching from an unknown start vertex

The claim says both searches return an empty or single-entry result
without raising.  In the code the start node is recorded in `reached`
and then `for nbr in g.neighbours(node)` iterates `None`, raising
`TypeError` — both searches crash rather than return. -/

/-- Counterexample to C3 as stated: on the empty graph with the unknown
start `0`, both searches raise (`crash`), so neither returns a result
mapping, empty or otherwise. -/
theorem search_unknown_start_claim_false :
    breadth_first_search ⟨[]⟩ 0 = SRes.crash ∧
      depth_first_search ⟨[]⟩ 0 = SRes.crash := by
  constructor <;> rfl

/-- C3 (amended): for every graph and non-vertex start, each search
records the start and then raises `TypeError` when it iterates the
`None` sentinel returned by `neighbours`; neither search returns a
result. -/
theorem search_unknown_start_crashes (g : Graph) (s : Nat)
    (h : g.is_vertex s = false) :
    breadth_first_search g s = SRes.crash ∧
      depth_first_search g s = SRes.crash := by
  have hnb : g.neighbours s = none := by
    unfold Graph.is_vertex at h
    unfold Graph.neighbours
    cases hx : alook g.mapData s with
    | none => rfl
    | some ent => rw [hx] at h; simp at h
  have hfuel : searchFuel g = (g.mapData.length + 1) * (g.adjTotal + 1) + 1 + 1 := rfl
  constructor
  · unfold breadth_first_search
    rw [hfuel]
    simp [stackAux, alook, hnb]
  · unfold depth_first_search
    rw [hfuel]
    simp [dfsAux, alook, hnb]

/-- Witness for the amended C3 at a concrete input: a one-vertex graph
with the absent start `7`. -/
theorem search_unknown_start_crashes_witness :
    (Graph.mk [(1, ((0, 0), []))]).is_vertex 7 = false ∧
      (breadth_first_search ⟨[(1, ((0, 0), []))]⟩ 7 = SRes.crash ∧
        depth_first_search ⟨[(1, ((0, 0), []))]⟩ 7 = SRes.crash) :=
  ⟨by decide, search_unknown_start_crashes ⟨[(1, ((0, 0), []))]⟩ 7 (by decide)⟩

/-! ### Invariant of the queue-discipline search

`reached` is the partial predecessor dict, `queue` the pending
(node, predecessor) entries.  The invariant captures what the lazy
deletion scheme guarantees: recorded predecessors are one level closer
to the start, queue entries are sorted by parent level and span at most
two consecutive levels, and every neighbour of a reached node is either
reached or still queued with that node as parent. -/
structure SInv (g : Graph) (s : Nat) (reached queue : List (Nat × Nat)) : Prop where
  nodup : (reached.map Prod.fst).Nodup
  pred : ∀ p ∈ reached, (p.1 = s ∧ p.2 = s) ∨
      (g.is_edge (p.2, p.1) = true ∧ p.2 ∈ reached.map Prod.fst ∧
        ∃ kp, MinDist g s p.2 kp ∧ MinDist g s p.1 (kp + 1))
  qpar : ∀ e ∈ queue, (e.1 = s ∧ e.2 = s) ∨
      (g.is_edge (e.2, e.1) = true ∧ e.2 ∈ reached.map Prod.fst)
  lvl : queue.Pairwise (fun e₁ e₂ => ∀ j₁ j₂, MinDist g s e₁.2 j₁ → MinDist g s e₂.2 j₂ →
      j₁ ≤ j₂ ∧ j₂ ≤ j₁ + 1)
  closure : ∀ p ∈ reached, ∀ w, g.is_edge (p.1, w) = true →
      w ∈ reached.map Prod.fst ∨ (w, p.1) ∈ queue
  base : (reached = [] → queue = [(s, s)]) ∧ (reached ≠ [] → s ∈ reached.map Prod.fst)

theorem mem_keys_exists {m : List (Nat × Nat)} {v : Nat} (h : v ∈ m.map Prod.fst) :
    ∃ p, (v, p) ∈ m := by
  obtain ⟨⟨a, b⟩, hm, hf⟩ := List.mem_map.mp h
  dsimp at hf
  exact ⟨b, hf ▸ hm⟩

theorem sinv_init (g : Graph) (s : Nat) : SInv g s [] [(s, s)] := by
  refine ⟨List.nodup_nil, ?_, ?_, ?_, ?_, ?_, ?_⟩
  · intro p hp; simp at hp
  · intro e he
    simp at he
    subst he
    exact Or.inl ⟨rfl, rfl⟩
  · exact List.pairwise_singleton _ _
  · intro p hp; simp at hp
  · intro _; rfl
  · intro h; exact absurd rfl h

/-- Every reached key has a defined minimum distance from the start. -/
theorem sinv_key_dist {g : Graph} {s : Nat} {reached queue : List (Nat × Nat)}
    (h : SInv g s reached queue) :
    ∀ v ∈ reached.map Prod.fst, ∃ k, MinDist g s v k := by
  intro v hv
  obtain ⟨⟨v', p⟩, hmem, hfst⟩ := List.mem_map.mp hv
  dsimp at hfst
  subst hfst
  rcases h.pred _ hmem with ⟨h1, _⟩ | ⟨_, _, kp, _, hd⟩
  · dsimp at h1
    refine ⟨0, ?_⟩
    rw [h1]
    exact minDist_self g s
  · exact ⟨kp + 1, hd⟩

/-- Every queue entry's parent has a defined minimum distance. -/
theorem sinv_parent_dist {g : Graph} {s : Nat} {reached queue : List (Nat × Nat)}
    (h : SInv g s reached queue) :
    ∀ e ∈ queue, ∃ k, MinDist g s e.2 k := by
  intro e he
  rcases h.qpar e he with ⟨_, h2⟩ | ⟨_, h2⟩
  · rw [h2]; exact ⟨0, minDist_self g s⟩
  · exact sinv_key_dist h _ h2

/-- Completeness below the front level: every vertex strictly closer to
the start than the front entry's parent has already been reached. -/
theorem sinv_complete_lt {g : Graph} {s : Nat} {reached : List (Nat × Nat)}
    {e₀ : Nat × Nat} {rest : List (Nat × Nat)}
    (h : SInv g s reached (e₀ :: rest)) {k₀ : ℕ} (hk₀ : MinDist g s e₀.2 k₀) :
    ∀ j, j < k₀ → ∀ v, MinDist g s v j → v ∈ reached.map Prod.fst := by
  intro j
  induction j using Nat.strong_induction_on with
  | _ j ih =>
    intro hj v hv
    match j, hv with
    | 0, hv =>
      have hvs : v = s := minDist_zero hv
      rw [hvs]
      rcases eq_or_ne reached [] with hre | hre
      · exfalso
        have hq := h.base.1 hre
        have he0 : e₀ = (s, s) := by
          have := List.head_eq_of_cons_eq hq
          exact this
        rw [he0] at hk₀
        have := minDist_unique hk₀ (minDist_self g s)
        omega
      · exact h.base.2 hre
    | j' + 1, hv =>
      obtain ⟨q, hq, hqe⟩ := minDist_pred hv
      have hqmem : q ∈ reached.map Prod.fst := ih j' (by omega) (by omega) q hq
      obtain ⟨pq, hqent⟩ := mem_keys_exists hqmem
      rcases h.closure _ hqent v hqe with hvk | hvq
      · exact hvk
      · exfalso
        rcases List.mem_cons.mp hvq with hvq | hvq
        · have he2 : e₀.2 = q := by rw [← hvq]
          rw [← he2] at hq
          have := minDist_unique hk₀ hq
          omega
        · have hrel := (List.pairwise_cons.mp h.lvl).1 _ hvq
          have := (hrel k₀ j' hk₀ hq).1
          omega

/-- The crux of correctness: when an entry `(n, p)` is popped and `n` is
not yet reached, `n` lies exactly one level beyond `p`. -/
theorem sinv_fresh_dist {g : Graph} {s : Nat} {reached : List (Nat × Nat)}
    {n p : Nat} {rest : List (Nat × Nat)}
    (h : SInv g s reached ((n, p) :: rest)) (hfresh : n ∉ reached.map Prod.fst)
    (hb : g.is_edge (p, n) = true ∧ p ∈ reached.map Prod.fst) :
    ∃ kp, MinDist g s p kp ∧ MinDist g s n (kp + 1) := by
  obtain ⟨hedge, hpmem⟩ := hb
  obtain ⟨kp, hkp⟩ := sinv_key_dist h p hpmem
  refine ⟨kp, hkp, walkLen_append_edge hkp.1 hedge, ?_⟩
  intro k hk
  by_contra hcon
  push_neg at hcon
  obtain ⟨j, hj⟩ := minDist_exists ⟨k, hk⟩
  have hjk : j ≤ k := hj.2 k hk
  have hjkp : j ≤ kp := by omega
  have hfront : MinDist g s ((n, p) : Nat × Nat).2 kp := hkp
  rcases Nat.lt_or_ge j kp with hlt | hge
  · exact hfresh (sinv_complete_lt h hfront j hlt n hj)
  · have hjeq : j = kp := by omega
    subst hjeq
    match j, hj, hkp with
    | 0, hj, hkp =>
      have hns : n = s := minDist_zero hj
      have hre : reached ≠ [] := by
        intro hre
        rw [hre] at hpmem
        simp at hpmem
      exact hfresh (hns ▸ h.base.2 hre)
    | j'' + 1, hj, hkp =>
      obtain ⟨q, hq, hqe⟩ := minDist_pred hj
      have hqmem : q ∈ reached.map Prod.fst :=
        sinv_complete_lt h hkp j'' (by omega) q hq
      obtain ⟨pq, hqent⟩ := mem_keys_exists hqmem
      rcases h.closure _ hqent n hqe with hvk | hvq
      · exact hfresh hvk
      · rcases List.mem_cons.mp hvq with hvq | hvq
        · have hqp : q = p := by
            have h2 := congrArg Prod.snd hvq
            exact h2
          rw [hqp] at hq
          have := minDist_unique hq hkp
          omega
        · have hrel := (List.pairwise_cons.mp h.lvl).1 _ hvq
          have := (hrel (j'' + 1) j'' hkp hq).1
          omega

/-! ### Preservation of the search invariant -/

theorem pairwise_of_total {α : Type} {R : α → α → Prop} (h : ∀ a b, R a b) :
    ∀ l : List α, l.Pairwise R := by
  intro l
  induction l with
  | nil => exact List.Pairwise.nil
  | cons hd t ih => exact List.Pairwise.cons (fun b _ => h hd b) ih

/-- Popping an already-reached entry keeps the invariant. -/
theorem sinv_stale {g : Graph} {s : Nat} {reached : List (Nat × Nat)} {n p : Nat}
    {rest : List (Nat × Nat)} (h : SInv g s reached ((n, p) :: rest))
    (hn : n ∈ reached.map Prod.fst) : SInv g s reached rest := by
  refine ⟨h.nodup, h.pred, ?_, (List.pairwise_cons.mp h.lvl).2, ?_, ?_, h.base.2⟩
  · intro e he
    exact h.qpar e (List.mem_cons_of_mem _ he)
  · intro pe hpe w hw
    rcases h.closure pe hpe w hw with h1 | h2
    · exact Or.inl h1
    · rcases List.mem_cons.mp h2 with h2 | h2
      · have hwn : w = n := by
          have := congrArg Prod.fst h2
          exact this
        exact Or.inl (hwn ▸ hn)
      · exact Or.inr h2
  · intro hre
    rw [hre] at hn
    simp at hn

/-- Recording a fresh entry and enqueueing its neighbours keeps the
invariant. -/
theorem sinv_fresh {g : Graph} {s : Nat} {reached : List (Nat × Nat)} {n p : Nat}
    {rest : List (Nat × Nat)} (h : SInv g s reached ((n, p) :: rest))
    (hfresh : n ∉ reached.map Prod.fst) {nbrs : List Nat}
    (hnb : g.neighbours n = some nbrs) :
    SInv g s (reached ++ [(n, p)]) (rest ++ nbrs.map (fun nb => (nb, n))) := by
  have hkeys' : (reached ++ [(n, p)]).map Prod.fst = reached.map Prod.fst ++ [n] := by
    simp
  have hedge_of_mem : ∀ nb ∈ nbrs, g.is_edge (n, nb) = true := by
    intro nb hmemnb
    exact is_edge_iff_neighbours.mpr ⟨nbrs, hnb, hmemnb⟩
  rcases h.qpar (n, p) (List.mem_cons_self _ _) with ⟨hns, hps⟩ | ⟨hedge, hpmem⟩
  · -- initial pop of the start entry: the queue was exactly [(s, s)]
    dsimp at hns hps
    have hre : reached = [] := by
      by_contra hre
      exact hfresh (hns ▸ h.base.2 hre)
    have hq0 : (n, p) :: rest = [(s, s)] := h.base.1 hre
    have hrest : rest = [] := List.tail_eq_of_cons_eq hq0
    subst hre hrest
    refine ⟨?_, ?_, ?_, ?_, ?_, ?_, ?_⟩
    · simp
    · intro pe hpe
      simp at hpe
      refine Or.inl ⟨?_, ?_⟩
      · rw [hpe, ← hns]
      · rw [hpe, ← hps]
    · intro e he
      simp only [List.nil_append] at he
      obtain ⟨nb, hmemnb, hnbe⟩ := List.mem_map.mp he
      refine Or.inr ⟨?_, ?_⟩
      · rw [← hnbe]
        exact hedge_of_mem nb hmemnb
      · rw [← hnbe]
        simp
    · simp only [List.nil_append]
      refine List.pairwise_map.mpr (pairwise_of_total ?_ _)
      intro a b j₁ j₂ h₁ h₂
      have := minDist_unique h₁ h₂
      omega
    · intro pe hpe w hw
      simp at hpe
      have hpe1 : pe.1 = n := by rw [hpe]
      rw [hpe1] at hw
      refine Or.inr ?_
      rcases is_edge_iff_neighbours.mp hw with ⟨nbrs', hnb', hmem'⟩
      rw [hnb] at hnb'
      have : nbrs = nbrs' := by injection hnb'
      subst this
      simp only [List.nil_append]
      rw [hpe1]
      exact List.mem_map.mpr ⟨w, hmem', rfl⟩
    · intro hcon
      simp at hcon
    · intro _
      rw [hkeys', ← hns]
      simp
  · -- regular pop: the fresh node sits one level past its parent
    obtain ⟨kp, hkp, hkn⟩ := sinv_fresh_dist h hfresh ⟨hedge, hpmem⟩
    have hlvl_head := (List.pairwise_cons.mp h.lvl).1
    have hlvl_tail := (List.pairwise_cons.mp h.lvl).2
    refine ⟨?_, ?_, ?_, ?_, ?_, ?_, ?_⟩
    · rw [hkeys']
      refine List.Nodup.append h.nodup (List.nodup_singleton _) ?_
      rw [List.disjoint_singleton]
      exact hfresh
    · intro pe hpe
      rcases List.mem_append.mp hpe with hpe | hpe
      · rcases h.pred pe hpe with h1 | ⟨h1, h2, h3⟩
        · exact Or.inl h1
        · exact Or.inr ⟨h1, by rw [hkeys']; exact List.mem_append_left _ h2, h3⟩
      · simp at hpe
        subst hpe
        refine Or.inr ⟨hedge, ?_, kp, hkp, hkn⟩
        rw [hkeys']
        exact List.mem_append_left _ hpmem
    · intro e he
      rcases List.mem_append.mp he with he | he
      · rcases h.qpar e (List.mem_cons_of_mem _ he) with h1 | ⟨h1, h2⟩
        · exact Or.inl h1
        · exact Or.inr ⟨h1, by rw [hkeys']; exact List.mem_append_left _ h2⟩
      · obtain ⟨nb, hmemnb, hnbe⟩ := List.mem_map.mp he
        refine Or.inr ⟨?_, ?_⟩
        · rw [← hnbe]
          exact hedge_of_mem nb hmemnb
        · rw [← hnbe, hkeys']
          simp
    · rw [List.pairwise_append]
      refine ⟨hlvl_tail, ?_, ?_⟩
      · refine List.pairwise_map.mpr (pairwise_of_total ?_ _)
        intro a b j₁ j₂ h₁ h₂
        have := minDist_unique h₁ h₂
        omega
      · intro e₁ he₁ e₂ he₂ j₁ j₂ h₁ h₂
        obtain ⟨nb, _, hnbe⟩ := List.mem_map.mp he₂
        have he₂2 : e₂.2 = n := by rw [← hnbe]
        rw [he₂2] at h₂
        have hj₂ : j₂ = kp + 1 := minDist_unique h₂ hkn
        have hrange := hlvl_head e₁ he₁ kp j₁ hkp h₁
        omega
    · intro pe hpe w hw
      rcases List.mem_append.mp hpe with hpe | hpe
      · rcases h.closure pe hpe w hw with h1 | h2
        · exact Or.inl (by rw [hkeys']; exact List.mem_append_left _ h1)
        · rcases List.mem_cons.mp h2 with h2 | h2
          · have hwn : w = n := by
              have := congrArg Prod.fst h2
              exact this
            refine Or.inl ?_
            rw [hkeys', hwn]
            simp
          · exact Or.inr (List.mem_append_left _ h2)
      · simp at hpe
        have hpe1 : pe.1 = n := by rw [hpe]
        rw [hpe1] at hw
        refine Or.inr ?_
        rcases is_edge_iff_neighbours.mp hw with ⟨nbrs', hnb', hmem'⟩
        rw [hnb] at hnb'
        have : nbrs = nbrs' := by injection hnb'
        subst this
        refine List.mem_append_right _ ?_
        rw [hpe1]
        exact List.mem_map.mpr ⟨w, hmem', rfl⟩
    · intro hcon
      simp at hcon
    · intro _
      have hre : reached ≠ [] := by
        intro hre
        rw [hre] at hpmem
        simp at hpmem
      rw [hkeys']
      exact List.mem_append_left _ (h.base.2 hre)

/-! ### Termination measure for the search loop -/

theorem length_filter_lt_of_mem {α : Type} {l : List α} {a : α} {q : α → Bool}
    (ha : a ∈ l) (hq : q a = false) : (l.filter q).length < l.length := by
  induction l with
  | nil => simp at ha
  | cons hd t ih =>
    rcases List.mem_cons.mp ha with h1 | h1
    · subst h1
      rw [List.filter_cons, hq]
      have := List.length_filter_le q t
      simp
      omega
    · cases hh : q hd
      · rw [List.filter_cons, hh]
        have := ih h1
        simp
        omega
      · rw [List.filter_cons, hh]
        have := ih h1
        simp
        omega

/-- Number of graph entries whose key has not been reached yet. -/
def unreachedCount (g : Graph) (reached : List (Nat × Nat)) : ℕ :=
  (g.mapData.filter (fun ent => (alook reached ent.1).isNone)).length

/-- The loop measure: unreached entries weighted by the adjacency budget,
plus the queue length. -/
def searchMu (g : Graph) (reached queue : List (Nat × Nat)) : ℕ :=
  unreachedCount g reached * (g.adjTotal + 1) + queue.length

theorem unreached_succ_le {g : Graph} {reached : List (Nat × Nat)} {n pr : Nat}
    (hk : (alook g.mapData n).isSome = true) (hf : alook reached n = none) :
    unreachedCount g (reached ++ [(n, pr)]) + 1 ≤ unreachedCount g reached := by
  have hpt : ∀ ent : Nat × (Coord × List Nat),
      (alook (reached ++ [(n, pr)]) ent.1).isNone =
        ((alook reached ent.1).isNone && !(ent.1 == n)) := by
    intro ent
    rw [alook_append]
    cases hx : alook reached ent.1 with
    | some a => simp
    | none =>
      simp only [Option.isNone_none, Bool.true_and]
      show (alook [(n, pr)] ent.1).isNone = !(ent.1 == n)
      by_cases he : n = ent.1
      · simp [alook, he]
      · have he2 : ¬(ent.1 = n) := fun h2 => he h2.symm
        simp [alook, he, he2]
  unfold unreachedCount
  have hre : g.mapData.filter (fun ent => (alook (reached ++ [(n, pr)]) ent.1).isNone) =
      (g.mapData.filter (fun ent => (alook reached ent.1).isNone)).filter
        (fun ent => !(ent.1 == n)) := by
    rw [List.filter_filter]
    apply List.filter_congr
    intro ent _
    rw [hpt ent]
    rw [Bool.and_comm]
  rw [hre]
  obtain ⟨entn, hentn⟩ := Option.isSome_iff_exists.mp hk
  have hmem : (n, entn) ∈ g.mapData.filter (fun ent => (alook reached ent.1).isNone) := by
    rw [List.mem_filter]
    exact ⟨alook_mem hentn, by simp [hf]⟩
  have := @length_filter_lt_of_mem _ _ _ (fun ent => !(ent.1 == n)) hmem (by simp)
  omega

theorem nbrs_le_adjTotal {g : Graph} {n : Nat} {ent : Coord × List Nat}
    (h : alook g.mapData n = some ent) : ent.2.length ≤ g.adjTotal := by
  have hmem : ent.2.length ∈ g.mapData.map (fun e => e.2.2.length) :=
    List.mem_map.mpr ⟨(n, ent), alook_mem h, rfl⟩
  exact List.single_le_sum (fun x _ => Nat.zero_le x) _ hmem

/-! ### The search loop runs to completion and yields the invariant -/

theorem dfsAux_run {g : Graph} {s : Nat} (hwf : WFGraph g)
    (hs : g.is_vertex s = true) :
    ∀ fuel reached queue, SInv g s reached queue → searchMu g reached queue < fuel →
      ∃ m, dfsAux g fuel reached queue = SRes.done m ∧ SInv g s m [] := by
  intro fuel
  induction fuel with
  | zero =>
    intro reached queue _ hmu
    omega
  | succ fuel ih =>
    intro reached queue hinv hmu
    match queue with
    | [] => exact ⟨reached, rfl, hinv⟩
    | (n, p) :: rest =>
      by_cases hst : (alook reached n).isSome = true
      · have hmem : n ∈ reached.map Prod.fst := (alook_isSome_iff _ _).mp hst
        have hinv' : SInv g s reached rest := sinv_stale hinv hmem
        have hmu' : searchMu g reached rest < fuel := by
          unfold searchMu at hmu ⊢
          simp only [List.length_cons] at hmu
          omega
        obtain ⟨m, hm, hfin⟩ := ih reached rest hinv' hmu'
        refine ⟨m, ?_, hfin⟩
        simp only [dfsAux, hst, if_true]
        exact hm
      · have hfr : alook reached n = none := by
          cases hx : alook reached n with
          | none => rfl
          | some a => rw [hx] at hst; simp at hst
        have hfreshmem : n ∉ reached.map Prod.fst := (alook_none_iff _ _).mp hfr
        have hnv : (alook g.mapData n).isSome = true := by
          rcases hinv.qpar (n, p) (List.mem_cons_self _ _) with ⟨hns, _⟩ | ⟨hedge, _⟩
          · dsimp at hns
            rw [hns]
            exact hs
          · unfold Graph.is_edge at hedge
            cases hx : alook g.mapData p with
            | none => rw [hx] at hedge; simp at hedge
            | some entp =>
              rw [hx] at hedge
              simp at hedge
              exact hwf.2 (p, entp) (alook_mem hx) n hedge
        obtain ⟨entn, hentn⟩ := Option.isSome_iff_exists.mp hnv
        have hnb : g.neighbours n = some entn.2 := by
          unfold Graph.neighbours
          rw [hentn]
          rfl
        have hinv' : SInv g s (reached ++ [(n, p)])
            (rest ++ entn.2.map (fun nb => (nb, n))) := sinv_fresh hinv hfreshmem hnb
        have hmu' : searchMu g (reached ++ [(n, p)])
            (rest ++ entn.2.map (fun nb => (nb, n))) < fuel := by
          have h1 := @unreached_succ_le g reached n p hnv hfr
          have h2 := nbrs_le_adjTotal hentn
          unfold searchMu at hmu ⊢
          simp only [List.length_append, List.length_map, List.length_cons] at hmu ⊢
          have h3 : (unreachedCount g (reached ++ [(n, p)]) + 1) * (g.adjTotal + 1) ≤
              unreachedCount g reached * (g.adjTotal + 1) :=
            Nat.mul_le_mul_right _ h1
          rw [Nat.succ_mul] at h3
          omega
        obtain ⟨m, hm, hfin⟩ := ih _ _ hinv' hmu'
        refine ⟨m, ?_, hfin⟩
        simp only [dfsAux, hst, if_false, hnb]
        exact hm

theorem searchMu_lt_fuel (g : Graph) (s : Nat) :
    searchMu g [] [(s, s)] < searchFuel g := by
  unfold searchMu searchFuel unreachedCount
  have h1 : (g.mapData.filter fun ent =>
      (alook ([] : List (Nat × Nat)) ent.1).isNone).length ≤ g.mapData.length :=
    List.length_filter_le _ _
  have h2 : (g.mapData.filter fun ent =>
      (alook ([] : List (Nat × Nat)) ent.1).isNone).length * (g.adjTotal + 1) ≤
        g.mapData.length * (g.adjTotal + 1) :=
    Nat.mul_le_mul_right _ h1
  have h3 : (g.mapData.length + 1) * (g.adjTotal + 1) =
      g.mapData.length * (g.adjTotal + 1) + (g.adjTotal + 1) := by ring
  simp only [List.length_cons, List.length_nil]
  omega

/-- On a well-formed graph, the queue-discipline search from a vertex
terminates with its invariant and an empty queue. -/
theorem depth_first_search_run {g : Graph} {s : Nat} (hwf : WFGraph g)
    (hs : g.is_vertex s = true) :
    ∃ m, depth_first_search g s = SRes.done m ∧ SInv g s m [] :=
  dfsAux_run hwf hs (searchFuel g) [] [(s, s)] (sinv_init g s) (searchMu_lt_fuel g s)

/-- With an empty queue, every reachable vertex has been recorded. -/
theorem sinv_complete_empty {g : Graph} {s : Nat} {m : List (Nat × Nat)}
    (h : SInv g s m []) : ∀ v, Reachable g s v → v ∈ m.map Prod.fst := by
  intro v hv
  obtain ⟨j, hj⟩ := minDist_exists hv
  clear hv
  induction j using Nat.strong_induction_on generalizing v with
  | _ j ih =>
    match j, hj with
    | 0, hj =>
      have hvs : v = s := minDist_zero hj
      rw [hvs]
      have hm : m ≠ [] := by
        intro hm
        have := h.base.1 hm
        simp at this
      exact h.base.2 hm
    | j' + 1, hj =>
      obtain ⟨q, hq, hqe⟩ := minDist_pred hj
      have hqmem : q ∈ m.map Prod.fst := ih j' (by omega) q hq
      obtain ⟨pq, hqent⟩ := mem_keys_exists hqmem
      rcases h.closure _ hqent v hqe with h1 | h1
      · exact h1
      · simp at h1

/-- Every recorded key is reachable from the start. -/
theorem sinv_keys_reachable {g : Graph} {s : Nat} {m queue : List (Nat × Nat)}
    (h : SInv g s m queue) : ∀ v ∈ m.map Prod.fst, Reachable g s v := by
  intro v hv
  obtain ⟨k, hk⟩ := sinv_key_dist h v hv
  exact ⟨k, hk.1⟩

/-! ### Claim C4: the queue-discipline search yields shortest hop paths -/

/-- Following the `reached` dict backwards from `v` to the start: the
recorded vertex list starts at `v` and ends at `s`. -/
inductive PredTrace (m : List (Nat × Nat)) (s : Nat) : Nat → List Nat → Prop
  | base : PredTrace m s s [s]
  | step {v p : Nat} {l : List Nat} : v ≠ s → alook m v = some p →
      PredTrace m s p l → PredTrace m s v (v :: l)

theorem predTrace_exists {g : Graph} {s : Nat} {m : List (Nat × Nat)}
    (h : SInv g s m []) :
    ∀ k v pv, (v, pv) ∈ m → MinDist g s v k →
      ∃ l, PredTrace m s v l ∧ l.length = k + 1 := by
  intro k
  induction k using Nat.strong_induction_on with
  | _ k ih =>
    intro v pv hmem hk
    match k, hk with
    | 0, hk =>
      have hvs : v = s := minDist_zero hk
      subst hvs
      exact ⟨[v], PredTrace.base, rfl⟩
    | k' + 1, hk =>
      have hvs : v ≠ s := by
        intro hvs
        subst hvs
        have := minDist_unique hk (minDist_self g v)
        omega
      rcases h.pred (v, pv) hmem with ⟨h1, _⟩ | ⟨hedge, hpmem, kp, hkp, hkv⟩
      · exact absurd h1 hvs
      · have hkpk : kp = k' := by
          have := minDist_unique hk hkv
          omega
        subst hkpk
        obtain ⟨ppv, hpent⟩ := mem_keys_exists hpmem
        obtain ⟨l, hl, hlen⟩ := ih kp (by omega) pv ppv hpent hkp
        refine ⟨v :: l, PredTrace.step hvs (mem_alook_of_nodup h.nodup hmem) hl, ?_⟩
        simp [hlen]

theorem edge_endpoints_vertices {g : Graph} (hwf : WFGraph g) {u v : Nat}
    (h : g.is_edge (u, v) = true) :
    g.is_vertex u = true ∧ g.is_vertex v = true := by
  unfold Graph.is_edge at h
  cases hx : alook g.mapData u with
  | none => rw [hx] at h; simp at h
  | some ent =>
    rw [hx] at h
    simp at h
    constructor
    · unfold Graph.is_vertex
      rw [hx]
      rfl
    · exact hwf.2 (u, ent) (alook_mem hx) v h

/-- Boolean pairwise-edge test versus `List.Chain'`. -/
theorem zip_all_iff_chain (g : Graph) :
    ∀ w : List Nat, ((w.zip w.tail).all (fun e => g.is_edge e)) = true ↔
      List.Chain' (fun a b => g.is_edge (a, b) = true) w := by
  intro w
  induction w with
  | nil => simp
  | cons a t ih =>
    cases t with
    | nil => simp
    | cons b t' =>
      rw [List.chain'_cons]
      constructor
      · intro h
        simp only [List.tail_cons, List.zip_cons_cons, List.all_cons,
          Bool.and_eq_true] at h
        exact ⟨h.1, ih.mp (by simpa using h.2)⟩
      · intro h
        simp only [List.tail_cons, List.zip_cons_cons, List.all_cons,
          Bool.and_eq_true]
        exact ⟨h.1, by simpa using ih.mpr h.2⟩

/-- The predecessor trace, reversed, passes the source's own `is_walk`
test: it is a genuine walk of the graph from `s` to `v`. -/
theorem predTrace_is_walk {g : Graph} {s : Nat} {m : List (Nat × Nat)}
    (hwf : WFGraph g) (h : SInv g s m []) (hs : g.is_vertex s = true) :
    ∀ v l, PredTrace m s v l →
      is_walk g l.reverse = true ∧ l.head? = some v ∧ l.getLast? = some s := by
  intro v l ht
  induction ht with
  | base =>
    refine ⟨?_, rfl, rfl⟩
    unfold is_walk
    simp [hs]
  | @step v' p l' hvs hlk hl ih =>
    obtain ⟨hwalk, hhead, hlast⟩ := ih
    have hmem := alook_mem hlk
    have hedge : g.is_edge (p, v') = true := by
      rcases h.pred (v', p) hmem with ⟨h1, _⟩ | ⟨h1, _⟩
      · exact absurd h1 hvs
      · exact h1
    have hv' : g.is_vertex v' = true := (edge_endpoints_vertices hwf hedge).2
    refine ⟨?_, rfl, ?_⟩
    · unfold is_walk at hwalk ⊢
      simp only [Bool.and_eq_true] at hwalk
      obtain ⟨⟨hall, hne⟩, hchain⟩ := hwalk
      have hl'ne : l' ≠ [] := by
        intro hcon
        rw [hcon] at hhead
        simp at hhead
      simp only [List.reverse_cons, Bool.and_eq_true]
      refine ⟨⟨?_, ?_⟩, ?_⟩
      · simp only [List.all_append, List.all_cons, List.all_nil,
          Bool.and_eq_true] at hall ⊢
        exact ⟨hall, hv', trivial⟩
      · simp
      · rw [zip_all_iff_chain] at hchain ⊢
        rw [List.chain'_append]
        refine ⟨hchain, List.chain'_singleton _, ?_⟩
        intro x hx y hy
        simp at hy
        subst hy
        have hx' : x = p := by
          rw [List.getLast?_reverse] at hx
          rw [hhead] at hx
          injection hx with h2
          exact h2.symm
        rw [hx']
        exact hedge
    · cases l' with
      | nil => simp at hhead
      | cons a t => simpa using hlast

/-- C4: for every well-formed graph and start vertex, the
queue-discipline (level-order) search — the function named
`depth_first_search` in the code — returns a predecessor map such that
for every reached vertex `v`, following predecessors from `v` back to
the start gives a walk of the graph whose edge count is the minimum
over all walks from the start to `v`. -/
theorem dfs_queue_gives_shortest_paths (g : Graph) (s : Nat)
    (hwf : WFGraph g) (hs : g.is_vertex s = true) :
    ∃ m, depth_first_search g s = SRes.done m ∧
      ∀ v ∈ m.map Prod.fst, ∃ l n, PredTrace m s v l ∧
        is_walk g l.reverse = true ∧ l.length = n + 1 ∧ MinDist g s v n := by
  obtain ⟨m, hm, hfin⟩ := depth_first_search_run hwf hs
  refine ⟨m, hm, ?_⟩
  intro v hv
  obtain ⟨pv, hmem⟩ := mem_keys_exists hv
  obtain ⟨n, hn⟩ := sinv_key_dist hfin v hv
  obtain ⟨l, hl, hlen⟩ := predTrace_exists hfin n v pv hmem hn
  exact ⟨l, n, hl, (predTrace_is_walk hwf hfin hs v l hl).1, hlen, hn⟩

/-- Witness for C4 on a concrete two-vertex graph with one edge. -/
theorem dfs_queue_gives_shortest_paths_witness :
    WFGraph ⟨[(1, ((0, 0), [2])), (2, ((0, 0), []))]⟩ ∧
      (Graph.mk [(1, ((0, 0), [2])), (2, ((0, 0), []))]).is_vertex 1 = true ∧
      (∃ m, depth_first_search ⟨[(1, ((0, 0), [2])), (2, ((0, 0), []))]⟩ 1 = SRes.done m ∧
        ∀ v ∈ m.map Prod.fst, ∃ l n,
          PredTrace m 1 v l ∧
            is_walk ⟨[(1, ((0, 0), [2])), (2, ((0, 0), []))]⟩ l.reverse = true ∧
            l.length = n + 1 ∧
            MinDist ⟨[(1, ((0, 0), [2])), (2, ((0, 0), []))]⟩ 1 v n) :=
  ⟨by decide, by decide,
    dfs_queue_gives_shortest_paths ⟨[(1, ((0, 0), [2])), (2, ((0, 0), []))]⟩ 1
      (by decide) (by decide)⟩

/-! ### The least-cost path solver of `src/server_new.py`

Cost values live in `Option ℚ`: `none` models `float("inf")`.  The cost
function is a parameter (`cost((u, v))` in the source); claims C1 and C5
quantify over all cost functions, so no fixed cost is baked in.
`src/cost.py`'s Euclidean `cost_distance` involves a square root and is
not needed by any claim's statement, so it is not embedded.

Python-float corner cases mirrored by `cvSub` (used once, in the
equality test `cost((neighbour, cheapest)) == costs[cheapest] - previous`
whose left side is always finite): `inf - x = inf` and `inf - inf = nan`
map to `none`, and `finite - inf = -inf` also maps to `none` — in every
case the equality test against the finite left side is `false`, exactly
as in Python. -/

/-- Result of `least_cost_path`: a path, the explicit no-path `None`, a
raised exception, the infinite reconstruction loop, or fuel exhaustion
(unreachable with the supplied fuel). -/
inductive LCPResult
  | ok (p : List Nat)
  | noPath
  | crash
  | diverge
  | out
deriving DecidableEq

/-- Result of the backtracking `while visited_edges` loop. -/
inductive BTRes
  | found (p : List Nat)
  | fell (ve : List (Nat × Nat)) (sp : List Nat) (cheapest : Nat)
  | crash
  | diverge
  | out
deriving DecidableEq

/-- Strict `<` on `[0, inf]`-valued costs. -/
def cvLt : Option ℚ → Option ℚ → Bool
  | none, _ => false
  | some _, none => true
  | some a, some b => a < b

/-- Non-strict `≤` on `[0, inf]`-valued costs. -/
def cvLe : Option ℚ → Option ℚ → Bool
  | none, none => true
  | none, some _ => false
  | some _, none => true
  | some a, some b => a ≤ b

/-- Addition with the infinity sentinel. -/
def cvAdd : Option ℚ → Option ℚ → Option ℚ
  | none, _ => none
  | _, none => none
  | some a, some b => some (a + b)

/-- Subtraction with the infinity sentinel (see the section comment). -/
def cvSub : Option ℚ → Option ℚ → Option ℚ
  | none, _ => none
  | some _, none => none
  | some a, some b => some (a - b)

/-- Model of `min(costs, key=costs.get)`: the first key attaining the minimum
value in iteration order (Python's `min` keeps the earliest minimum). -/
def minPair : List (Nat × Option ℚ) → Option (Nat × Option ℚ)
  | [] => none
  | p :: t =>
    match minPair t with
    | none => some p
    | some q => if cvLe p.2 q.2 then some p else some q

/-- The relaxation loop `for node in adjacents` of `least_cost_path`:
update a not-yet-visited neighbour when the path through `cheapest` is
cheaper.  A missing key in `costs` is a `KeyError` (`none`). -/
def relaxFold (cost : Nat × Nat → ℚ) (cheapest : Nat) (visited : List Nat) :
    List (Nat × Option ℚ) → List Nat → Option (List (Nat × Option ℚ))
  | costs, [] => some costs
  | costs, node :: rest =>
    if node ∈ visited then relaxFold cost cheapest visited costs rest
    else
      match alook costs node, alook costs cheapest with
      | some cn, some cc =>
        if cvLt (cvAdd (some (cost (cheapest, node))) cc) cn then
          relaxFold cost cheapest visited
            (aupd costs node (fun _ => cvAdd (some (cost (cheapest, node))) cc)) rest
        else relaxFold cost cheapest visited costs rest
      | _, _ => none

/-- The path-reconstruction loop `while visited_edges` of
`least_cost_path`: scan the neighbours of the current node for a settled
incoming edge, pop it, and step backwards; when a full scan finds no
matching edge the Python loop never terminates (`diverge`). -/
def backtrack (g : Graph) (start : Nat) :
    ℕ → List (Nat × Nat) → List Nat → Nat → BTRes
  | 0, _, _, _ => .out
  | fuel + 1, ve, sp, cheapest =>
    if ve.isEmpty then .fell ve sp cheapest
    else
      match g.neighbours cheapest with
      | none => .crash
      | some nbrs =>
        match nbrs.find? (fun nb => decide ((nb, cheapest) ∈ ve)) with
        | none => .diverge
        | some nb =>
          if nb = start then .found ((sp ++ [nb]).reverse)
          else backtrack g start fuel (eraseFirst ve (nb, cheapest)) (sp ++ [nb]) nb

/-- The main `while component` loop of `least_cost_path`, one iteration
per fuel unit: relax the neighbours of the current node, mark it
visited, pop it from the component and from `costs` (unless `costs` is a
singleton), pick the new minimum-cost node, record cost-reconciling
settled edges, and on reaching `dest` attempt backtracking. -/
def dijkstraLoop (g : Graph) (start dest : Nat) (cost : Nat × Nat → ℚ) :
    ℕ → List (Nat × Nat) → List (Nat × Option ℚ) → List Nat → List (Nat × Nat) →
      List Nat → Nat → Option ℚ → LCPResult
  | 0, _, _, _, _, _, _, _ => .out
  | fuel + 1, component, costs, visited, ve, sp, cheapest, previous =>
    if component.isEmpty then .noPath
    else
      match g.neighbours cheapest with
      | none => .crash
      | some adjacents =>
        match relaxFold cost cheapest visited costs adjacents with
        | none => .crash
        | some costs1 =>
          let visited1 := if cheapest ∈ visited then visited else visited ++ [cheapest]
          match apop component cheapest with
          | none => .crash
          | some (_, component1) =>
            match (if costs1.length ≠ 1 then apop costs1 cheapest
                   else some (previous, costs1)) with
            | none => .crash
            | some (previous1, costs2) =>
              match minPair costs2 with
              | none => .crash
              | some (cheapest1, _) =>
                match g.neighbours cheapest1 with
                | none => .crash
                | some nbrs1 =>
                  match alook costs2 cheapest1 with
                  | none => .crash
                  | some cc1 =>
                    let ve1 := ve ++ (nbrs1.filter (fun nb =>
                        decide (nb ∈ visited1) &&
                          decide (some (cost (nb, cheapest1)) = cvSub cc1 previous1))).map
                        (fun nb => (nb, cheapest1))
                    if cheapest1 = dest then
                      match backtrack g start (ve1.length + 1) ve1
                          (sp ++ [cheapest1]) cheapest1 with
                      | .found pth => .ok pth
                      | .crash => .crash
                      | .diverge => .diverge
                      | .out => .out
                      | .fell ve2 sp2 cheapest2 =>
                        dijkstraLoop g start dest cost fuel component1 costs2
                          visited1 ve2 sp2 cheapest2 previous1
                    else
                      dijkstraLoop g start dest cost fuel component1 costs2
                        visited1 ve1 sp cheapest1 previous1

/-- Model of `least_cost_path` in `src/server_new.py`: trivial check, component
restriction via the queue-discipline search, then the Dijkstra-style
relaxation loop.  `previous` starts formally at `some 0`; the source
leaves it unbound until the first loop iteration assigns it, which
happens before any read whenever the loop is entered with at least two
component vertices (always the case when `start ≠ dest ∈ component`). -/
def least_cost_path (g : Graph) (start dest : Nat) (cost : Nat × Nat → ℚ) : LCPResult :=
  if start = dest then .ok [start]
  else
    match depth_first_search g start with
    | .out => .out
    | .crash => .crash
    | .done component =>
      if (alook component dest).isSome then
        dijkstraLoop g start dest cost (component.length + 1) component
          (component.map (fun p => (p.1, if p.1 = start then some (0 : ℚ) else none)))
          [] [] [] start (some 0)
      else .noPath

/-- Two isolated vertices. -/
def exIsolated : Graph := ⟨[(1, ((0, 0), [])), (2, ((0, 0), []))]⟩

/-- Two vertices joined by the single directed edge `1 → 2`. -/
def exOneEdge : Graph := ⟨[(1, ((0, 0), [2])), (2, ((0, 0), []))]⟩

/-! ### Claim C5: unreachable destination yields the explicit no-path
result -/

/-- C5: for every well-formed graph, cost function, and vertices
`start ≠ dest` with `dest` unreachable from `start`, `least_cost_path`
returns the explicit no-path result (`None`), without any error. -/
theorem lcp_unreachable_noPath (g : Graph) (start dest : Nat)
    (cost : Nat × Nat → ℚ) (hwf : WFGraph g) (hs : g.is_vertex start = true)
    (hne : start ≠ dest) (hur : ¬Reachable g start dest) :
    least_cost_path g start dest cost = LCPResult.noPath := by
  obtain ⟨m, hm, hfin⟩ := depth_first_search_run hwf hs
  unfold least_cost_path
  rw [if_neg hne, hm]
  have hdk : alook m dest = none := by
    rw [alook_none_iff]
    intro hmem
    exact hur (sinv_keys_reachable hfin dest hmem)
  simp [hdk]

/-- Witness for C5: two isolated vertices, constant cost. -/
theorem lcp_unreachable_noPath_witness :
    WFGraph exIsolated ∧ exIsolated.is_vertex 1 = true ∧ 1 ≠ 2 ∧
      ¬Reachable exIsolated 1 2 ∧
      least_cost_path exIsolated 1 2 (fun _ => 1) = LCPResult.noPath := by
  have hur : ¬Reachable exIsolated 1 2 := by
    rintro ⟨n, hw⟩
    cases hw with
    | cons he _ => simp [exIsolated, Graph.is_edge, alook] at he
  exact ⟨by decide, by decide, by decide, hur,
    lcp_unreachable_noPath exIsolated 1 2 (fun _ => 1) (by decide) (by decide)
      (by decide) hur⟩

/-! ### Claim C1: the solver on a reachable destination

The claim asserts `least_cost_path` returns a minimum-cost path whenever
`dest` is reachable from `start` (with non-negative costs).  The code's
path reconstruction scans the *out*-neighbours of each newly settled
node for an already-visited endpoint whose edge cost reconciles the cost
delta; on a purely directed graph the predecessor is not among the
out-neighbours, no settled edge is ever recorded, backtracking falls
through, and the function returns `None` — contradicting both the claim
and the function's own docstring. -/

/-- C1 evaluated at the failing input: on the two-vertex graph with the
single directed edge `1 → 2` (any cost; here constantly `1`), the
destination is reachable yet `least_cost_path` returns the no-path
result instead of the path `[1, 2]` of cost `1`. -/
theorem lcp_misses_reachable_dest :
    least_cost_path exOneEdge 1 2 (fun _ => 1) = LCPResult.noPath ∧
      Reachable exOneEdge 1 2 := by
  constructor
  · decide
  · exact ⟨1, WalkLen.cons (by decide) (WalkLen.nil 2)⟩

/-! ### `count_components` of `src/graph.py` -/

/-- Model of `for vertex in connected_vertices: if vertex in queue:
queue.remove(vertex)` — first-occurrence removal of every reached
vertex. -/
def removeReached (reached queue : List Nat) : List Nat :=
  reached.foldl (fun q v => eraseFirst q v) queue

/-- The `while queue` loop of `count_components`: pop the front vertex,
run the queue-discipline search from it, drop everything reached from
the candidate pool, and count one component.  `none` covers a raised
exception inside the search (impossible on well-formed graphs, as proved
below). -/
def ccAux (g : Graph) : ℕ → List Nat → Option ℕ
  | 0, _ => none
  | _ + 1, [] => some 0
  | fuel + 1, start :: rest =>
    match depth_first_search g start with
    | .out => none
    | .crash => none
    | .done m =>
      (ccAux g fuel (removeReached (m.map Prod.fst) rest)).map (fun n => n + 1)

/-- Model of `count_components` in `src/graph.py`. -/
def count_components (g : Graph) : Option ℕ :=
  ccAux g (g.vertices.length + 1) g.vertices

theorem eraseFirst_length_le {α : Type} [DecidableEq α] (l : List α) (a : α) :
    (eraseFirst l a).length ≤ l.length := by
  induction l with
  | nil => simp [eraseFirst]
  | cons hd t ih =>
    by_cases hh : hd = a
    · simp [eraseFirst, hh]
    · simp only [eraseFirst, if_neg hh, List.length_cons]
      omega

theorem mem_eraseFirst {α : Type} [DecidableEq α] {l : List α} {a b : α}
    (h : b ∈ eraseFirst l a) : b ∈ l := by
  induction l with
  | nil => simp [eraseFirst] at h
  | cons hd t ih =>
    by_cases hh : hd = a
    · simp [eraseFirst, hh] at h
      exact List.mem_cons_of_mem _ h
    · simp [eraseFirst, hh] at h
      rcases h with h | h
      · simp [h]
      · exact List.mem_cons_of_mem _ (ih h)

theorem eraseFirst_nodup {α : Type} [DecidableEq α] {l : List α} (a : α)
    (h : l.Nodup) : (eraseFirst l a).Nodup := by
  induction l with
  | nil => simp [eraseFirst]
  | cons hd t ih =>
    rw [List.nodup_cons] at h
    by_cases hh : hd = a
    · simp [eraseFirst, hh]
      exact h.2
    · simp [eraseFirst, hh, List.nodup_cons]
      exact ⟨fun hc => h.1 (mem_eraseFirst hc), ih h.2⟩

theorem mem_eraseFirst_nodup {α : Type} [DecidableEq α] {l : List α} {a b : α}
    (h : l.Nodup) : b ∈ eraseFirst l a ↔ (b ∈ l ∧ b ≠ a) := by
  induction l with
  | nil => simp [eraseFirst]
  | cons hd t ih =>
    rw [List.nodup_cons] at h
    by_cases hh : hd = a
    · subst hh
      simp only [eraseFirst, if_pos rfl, List.mem_cons]
      constructor
      · intro hb
        exact ⟨Or.inr hb, fun he => h.1 (he ▸ hb)⟩
      · rintro ⟨hb | hb, hne⟩
        · exact absurd hb hne
        · exact hb
    · simp only [eraseFirst, if_neg hh, List.mem_cons, ih h.2]
      constructor
      · rintro (hb | ⟨hb, hne⟩)
        · exact ⟨Or.inl hb, fun he => hh (hb ▸ he)⟩
        · exact ⟨Or.inr hb, hne⟩
      · rintro ⟨hb | hb, hne⟩
        · exact Or.inl hb
        · exact Or.inr ⟨hb, hne⟩

theorem removeReached_length_le (reached queue : List Nat) :
    (removeReached reached queue).length ≤ queue.length := by
  unfold removeReached
  induction reached generalizing queue with
  | nil => simp
  | cons hd t ih =>
    simp only [List.foldl_cons]
    exact le_trans (ih (eraseFirst queue hd)) (eraseFirst_length_le queue hd)

theorem removeReached_subset {reached queue : List Nat} {v : Nat}
    (h : v ∈ removeReached reached queue) : v ∈ queue := by
  unfold removeReached at h
  induction reached generalizing queue with
  | nil => simpa using h
  | cons hd t ih =>
    simp only [List.foldl_cons] at h
    exact mem_eraseFirst (ih h)

theorem removeReached_nodup {reached queue : List Nat} (h : queue.Nodup) :
    (removeReached reached queue).Nodup := by
  unfold removeReached
  induction reached generalizing queue with
  | nil => simpa
  | cons hd t ih =>
    simp only [List.foldl_cons]
    exact ih (eraseFirst_nodup hd h)

theorem mem_removeReached_nodup {reached queue : List Nat} {v : Nat}
    (h : queue.Nodup) : v ∈ removeReached reached queue ↔
      (v ∈ queue ∧ v ∉ reached) := by
  unfold removeReached
  induction reached generalizing queue with
  | nil => simp
  | cons hd t ih =>
    simp only [List.foldl_cons]
    rw [ih (eraseFirst_nodup hd h), mem_eraseFirst_nodup h, List.mem_cons]
    constructor
    · rintro ⟨⟨hq, hne⟩, ht⟩
      exact ⟨hq, by rintro (he | he); exacts [hne he, ht he]⟩
    · rintro ⟨hq, hnm⟩
      exact ⟨⟨hq, fun he => hnm (Or.inl he)⟩, fun ht => hnm (Or.inr ht)⟩

/-! ### Reachability algebra -/

theorem walkLen_trans {g : Graph} {u v w : Nat} {n m : ℕ}
    (h1 : WalkLen g u v n) (h2 : WalkLen g v w m) : WalkLen g u w (n + m) := by
  induction h1 with
  | nil => simpa using h2
  | cons he _ ih =>
    have := ih h2
    have h3 := WalkLen.cons he this
    have : ∀ a b : ℕ, a + 1 + b = a + b + 1 := by omega
    rw [this]
    exact h3

theorem reachable_refl (g : Graph) (v : Nat) : Reachable g v v := ⟨0, WalkLen.nil v⟩

theorem reachable_trans {g : Graph} {u v w : Nat}
    (h1 : Reachable g u v) (h2 : Reachable g v w) : Reachable g u w := by
  obtain ⟨n, hn⟩ := h1
  obtain ⟨m, hm⟩ := h2
  exact ⟨n + m, walkLen_trans hn hm⟩

theorem reachable_symm {g : Graph}
    (hsym : ∀ u v, g.is_edge (u, v) = true → g.is_edge (v, u) = true)
    {u v : Nat} (h : Reachable g u v) : Reachable g v u := by
  obtain ⟨n, hn⟩ := h
  induction hn with
  | nil => exact reachable_refl g _
  | cons he _ ih =>
    exact reachable_trans ih ⟨1, WalkLen.cons (hsym _ _ he) (WalkLen.nil _)⟩

/-- Mutual reachability: the relation whose maximal cliques are the
claim's "maximal mutually-reachable vertex subsets". -/
def MutualReach (g : Graph) (u v : Nat) : Prop :=
  Reachable g u v ∧ Reachable g v u

theorem mutualReach_refl (g : Graph) (v : Nat) : MutualReach g v v :=
  ⟨reachable_refl g v, reachable_refl g v⟩

theorem mutualReach_symm {g : Graph} {u v : Nat} (h : MutualReach g u v) :
    MutualReach g v u := ⟨h.2, h.1⟩

theorem mutualReach_trans {g : Graph} {u v w : Nat} (h1 : MutualReach g u v)
    (h2 : MutualReach g v w) : MutualReach g u w :=
  ⟨reachable_trans h1.1 h2.1, reachable_trans h2.2 h1.2⟩

/-- Count of maximal mutually-reachable subsets, expressed through a
system of class representatives drawn from the vertex set: pairwise not
mutually reachable, and covering every vertex.  This is the spec-side
notion the claim compares `count_components` against. -/
def IsComponentCount (g : Graph) (n : ℕ) : Prop :=
  ∃ reps : List Nat,
    reps.length = n ∧
    (∀ r ∈ reps, r ∈ g.vertices) ∧
    reps.Pairwise (fun a b => ¬MutualReach g a b) ∧
    (∀ v ∈ g.vertices, ∃ r ∈ reps, MutualReach g r v)

theorem sinv_start_mem {g : Graph} {s : Nat} {m : List (Nat × Nat)}
    (h : SInv g s m []) : s ∈ m.map Prod.fst := by
  have hm : m ≠ [] := by
    intro hm
    have := h.base.1 hm
    simp at this
  exact h.base.2 hm

/-! ### Claim C10: `count_components` terminates within the vertex
count -/

theorem ccAux_run {g : Graph} (hwf : WFGraph g) :
    ∀ fuel queue, queue.length < fuel → (∀ v ∈ queue, g.is_vertex v = true) →
      ∃ n, ccAux g fuel queue = some n ∧ n ≤ queue.length := by
  intro fuel
  induction fuel with
  | zero =>
    intro queue h _
    omega
  | succ fuel ih =>
    intro queue hlen hvert
    match queue with
    | [] => exact ⟨0, rfl, Nat.le_refl 0⟩
    | start :: rest =>
      obtain ⟨m, hm, _⟩ :=
        depth_first_search_run hwf (hvert start (List.mem_cons_self _ _))
      have hq' : (removeReached (m.map Prod.fst) rest).length < fuel := by
        have := removeReached_length_le (m.map Prod.fst) rest
        simp only [List.length_cons] at hlen
        omega
      have hv' : ∀ v ∈ removeReached (m.map Prod.fst) rest, g.is_vertex v = true :=
        fun v hv => hvert v (List.mem_cons_of_mem _ (removeReached_subset hv))
      obtain ⟨n, hn, hle⟩ := ih _ hq' hv'
      have hrr := removeReached_length_le (m.map Prod.fst) rest
      refine ⟨n + 1, ?_, by simp only [List.length_cons]; omega⟩
      simp only [ccAux, hm, hn]
      rfl

/-- C10: on every well-formed graph — also directed graphs lacking
reciprocal edges — `count_components` terminates and returns a count
between `0` and the number of vertices: the outer loop removes at least
the popped start vertex from the pool each iteration. -/
theorem count_components_terminates (g : Graph) (hwf : WFGraph g) :
    ∃ n, count_components g = some n ∧ n ≤ g.vertices.length := by
  unfold count_components
  refine ccAux_run hwf _ g.vertices (by omega) ?_
  intro v hv
  unfold Graph.is_vertex
  rw [alook_isSome_iff]
  exact hv

/-- Witness for C10 at a directed, non-symmetric concrete graph. -/
theorem count_components_terminates_witness :
    WFGraph exOneEdge ∧
      ∃ n, count_components exOneEdge = some n ∧ n ≤ exOneEdge.vertices.length :=
  ⟨by decide, count_components_terminates exOneEdge (by decide)⟩

/-! ### Claim C6: `count_components` on symmetric graphs -/

theorem ccAux_classes {g : Graph} (hwf : WFGraph g)
    (hsym : ∀ u v, g.is_edge (u, v) = true → g.is_edge (v, u) = true) :
    ∀ fuel queue, queue.length < fuel →
      (∀ v ∈ queue, g.is_vertex v = true) → queue.Nodup →
      (∀ u v, MutualReach g u v → u ∈ queue → g.is_vertex v = true → v ∈ queue) →
      ∃ n, ccAux g fuel queue = some n ∧
        ∃ reps : List Nat, reps.length = n ∧ (∀ r ∈ reps, r ∈ queue) ∧
          reps.Pairwise (fun a b => ¬MutualReach g a b) ∧
          (∀ v ∈ queue, ∃ r ∈ reps, MutualReach g r v) := by
  intro fuel
  induction fuel with
  | zero =>
    intro queue h _ _ _
    omega
  | succ fuel ih =>
    intro queue hlen hvert hnd hclosed
    match queue with
    | [] =>
      refine ⟨0, rfl, [], rfl, ?_, List.Pairwise.nil, ?_⟩
      · intro r hr; simp at hr
      · intro v hv; simp at hv
    | start :: rest =>
      have hstartv : g.is_vertex start = true := hvert start (List.mem_cons_self _ _)
      obtain ⟨m, hm, hfin⟩ := depth_first_search_run hwf hstartv
      -- the reached keys are exactly the vertices reachable from start
      have hkeys_iff : ∀ v, v ∈ m.map Prod.fst ↔ Reachable g start v := by
        intro v
        exact ⟨fun hv => sinv_keys_reachable hfin v hv,
          fun hv => sinv_complete_empty hfin v hv⟩
      have hrestnd : rest.Nodup := (List.nodup_cons.mp hnd).2
      have hstartni : start ∉ rest := (List.nodup_cons.mp hnd).1
      set q' := removeReached (m.map Prod.fst) rest with hq'eq
      have hq'mem : ∀ v, v ∈ q' ↔ (v ∈ rest ∧ ¬Reachable g start v) := by
        intro v
        rw [hq'eq, mem_removeReached_nodup hrestnd, hkeys_iff]
      have hq'len : q'.length < fuel := by
        rw [hq'eq]
        have := removeReached_length_le (m.map Prod.fst) rest
        simp only [List.length_cons] at hlen
        omega
      have hq'vert : ∀ v ∈ q', g.is_vertex v = true :=
        fun v hv => hvert v (List.mem_cons_of_mem _ (removeReached_subset hv))
      have hq'nd : q'.Nodup := removeReached_nodup hrestnd
      have hq'closed : ∀ u v, MutualReach g u v → u ∈ q' → g.is_vertex v = true →
          v ∈ q' := by
        intro u v huv hu hv
        rw [hq'mem] at hu
        rw [hq'mem]
        have hvq : v ∈ start :: rest :=
          hclosed u v huv (List.mem_cons_of_mem _ hu.1) hv
        have hnr : ¬Reachable g start v := by
          intro hr
          exact hu.2 (reachable_trans hr huv.2)
        refine ⟨?_, hnr⟩
        rcases List.mem_cons.mp hvq with hvs | hvr
        · exact absurd (hvs ▸ reachable_refl g start) hnr
        · exact hvr
      obtain ⟨n, hn, reps', hlen', hsub', hpw', hcov'⟩ :=
        ih q' hq'len hq'vert hq'nd hq'closed
      refine ⟨n + 1, ?_, start :: reps', by simp [hlen'], ?_, ?_, ?_⟩
      · simp only [ccAux, hm]
        rw [← hq'eq, hn]
        rfl
      · intro r hr
        rcases List.mem_cons.mp hr with hr | hr
        · simp [hr]
        · exact List.mem_cons_of_mem _ (removeReached_subset (hsub' r hr))
      · refine List.Pairwise.cons ?_ hpw'
        intro r' hr' hcon
        have := (hq'mem r').mp (hsub' r' hr')
        exact this.2 hcon.1
      · intro v hv
        rcases List.mem_cons.mp hv with hv | hv
        · exact ⟨start, List.mem_cons_self _ _, hv ▸ mutualReach_refl g start⟩
        · by_cases hreach : Reachable g start v
          · exact ⟨start, List.mem_cons_self _ _, ⟨hreach, reachable_symm hsym hreach⟩⟩
          · obtain ⟨r, hr, hrv⟩ := hcov' v ((hq'mem v).mpr ⟨hv, hreach⟩)
            exact ⟨r, List.mem_cons_of_mem _ hr, hrv⟩

/-- Any two systems of mutual-reachability representatives covering the
vertex set have the same size. -/
theorem componentCount_unique {g : Graph} {n k : ℕ}
    (h1 : IsComponentCount g n) (h2 : IsComponentCount g k) : n = k := by
  obtain ⟨r1, hl1, hv1, hp1, hc1⟩ := h1
  obtain ⟨r2, hl2, hv2, hp2, hc2⟩ := h2
  have key : ∀ (a b : List Nat),
      (∀ r ∈ a, r ∈ g.vertices) → a.Pairwise (fun x y => ¬MutualReach g x y) →
      (∀ v ∈ g.vertices, ∃ r ∈ b, MutualReach g r v) →
      b.Nodup → a.length ≤ b.length := by
    intro a b hav hap hbc hbnd
    have hand : a.Nodup :=
      hap.imp (fun hxy he => hxy (by rw [he]; exact mutualReach_refl g _))
    classical
    have hch : ∀ r ∈ a, ∃ r' ∈ b, MutualReach g r' r := fun r hr => hbc r (hav r hr)
    obtain ⟨f, hf⟩ : ∃ f : Nat → Nat, ∀ r ∈ a, f r ∈ b ∧ MutualReach g (f r) r := by
      refine ⟨fun r => if h : ∃ r' ∈ b, MutualReach g r' r then h.choose else 0, ?_⟩
      intro r hr
      have h := hch r hr
      dsimp only
      rw [dif_pos h]
      exact ⟨h.choose_spec.1, h.choose_spec.2⟩
    have hmaps : ∀ r ∈ a, f r ∈ b := fun r hr => (hf r hr).1
    have hrel : ∀ r ∈ a, MutualReach g (f r) r := fun r hr => (hf r hr).2
    have hsymm : Symmetric (fun x y => ¬MutualReach g x y) := by
      intro x y hxy hcon
      exact hxy (mutualReach_symm hcon)
    have hinj : ∀ r₁ ∈ a, ∀ r₂ ∈ a, f r₁ = f r₂ → r₁ = r₂ := by
      intro r₁ h₁ r₂ h₂ hfe
      by_contra hne
      have hnm : ¬MutualReach g r₁ r₂ := hap.forall hsymm h₁ h₂ hne
      have hm1 := hrel r₁ h₁
      have hm2 := hrel r₂ h₂
      rw [hfe] at hm1
      exact hnm (mutualReach_trans (mutualReach_symm hm1) hm2)
    calc a.length = a.toFinset.card := (List.toFinset_card_of_nodup hand).symm
      _ ≤ b.toFinset.card := by
          apply Finset.card_le_card_of_injOn f
          · intro x hx
            simp only [List.mem_toFinset] at hx ⊢
            exact hmaps x hx
          · intro x hx y hy hxy
            simp only [Finset.mem_coe, List.mem_toFinset] at hx hy
            exact hinj x hx y hy hxy
      _ = b.length := List.toFinset_card_of_nodup hbnd
  have hnd2 : r2.Nodup :=
    hp2.imp (fun hxy he => hxy (by rw [he]; exact mutualReach_refl g _))
  have hnd1 : r1.Nodup :=
    hp1.imp (fun hxy he => hxy (by rw [he]; exact mutualReach_refl g _))
  have hle1 : r1.length ≤ r2.length := key r1 r2 hv1 hp1 hc2 hnd2
  have hle2 : r2.length ≤ r1.length := key r2 r1 hv2 hp2 hc1 hnd1
  omega

/-- C6: on every well-formed graph in which every edge has a matching
reverse edge, `count_components` returns exactly the number of maximal
mutually-reachable vertex subsets (and that number is unique). -/
theorem count_components_correct (g : Graph) (hwf : WFGraph g)
    (hsym : ∀ u v, g.is_edge (u, v) = true → g.is_edge (v, u) = true) :
    ∃ n, count_components g = some n ∧ IsComponentCount g n ∧
      ∀ k, IsComponentCount g k → k = n := by
  have hvert : ∀ v ∈ g.vertices, g.is_vertex v = true := by
    intro v hv
    unfold Graph.is_vertex
    rw [alook_isSome_iff]
    exact hv
  have hnd : g.vertices.Nodup := hwf.1
  obtain ⟨n, hn, reps, hlen, hsub, hpw, hcov⟩ :=
    ccAux_classes hwf hsym (g.vertices.length + 1) g.vertices (by omega) hvert hnd
      (fun u v _ _ hv => by
        unfold Graph.is_vertex at hv
        rw [alook_isSome_iff] at hv
        exact hv)
  have hicc : IsComponentCount g n := ⟨reps, hlen, hsub, hpw, hcov⟩
  exact ⟨n, hn, hicc, fun k hk => componentCount_unique hk hicc⟩

/-- Witness for C6: a two-vertex graph with reciprocal edges plus an
isolated vertex. -/
theorem count_components_correct_witness :
    WFGraph ⟨[(1, ((0, 0), [2])), (2, ((0, 0), [1])), (3, ((0, 0), []))]⟩ ∧
      ∃ n, count_components ⟨[(1, ((0, 0), [2])), (2, ((0, 0), [1])), (3, ((0, 0), []))]⟩ =
          some n ∧
        IsComponentCount ⟨[(1, ((0, 0), [2])), (2, ((0, 0), [1])), (3, ((0, 0), []))]⟩ n ∧
        ∀ k, IsComponentCount ⟨[(1, ((0, 0), [2])), (2, ((0, 0), [1])), (3, ((0, 0), []))]⟩ k →
          k = n := by
  have hsym : ∀ u v,
      (Graph.mk [(1, ((0, 0), [2])), (2, ((0, 0), [1])), (3, ((0, 0), []))]).is_edge (u, v) = true →
      (Graph.mk [(1, ((0, 0), [2])), (2, ((0, 0), [1])), (3, ((0, 0), []))]).is_edge (v, u) = true := by
    intro u v h
    by_cases h1 : u = 1
    · subst h1
      have hv : v = 2 := by
        simp [Graph.is_edge, alook] at h
        exact h
      subst hv
      decide
    · by_cases h2 : u = 2
      · subst h2
        have hv : v = 1 := by
          simp [Graph.is_edge, alook] at h
          exact h
        subst hv
        decide
      · by_cases h3 : u = 3
        · subst h3
          simp [Graph.is_edge, alook] at h
        · exfalso
          have n1 : ¬((1 : Nat) = u) := fun he => h1 he.symm
          have n2 : ¬((2 : Nat) = u) := fun he => h2 he.symm
          have n3 : ¬((3 : Nat) = u) := fun he => h3 he.symm
          simp [Graph.is_edge, alook, n1, n2, n3] at h
  exact ⟨by decide,
    count_components_correct ⟨[(1, ((0, 0), [2])), (2, ((0, 0), [1])), (3, ((0, 0), []))]⟩
      (by decide) hsym⟩

/-! ### More association-list lemmas (for the coordinate-keyed graph) -/

theorem alook_aset_self {κ α : Type} [DecidableEq κ] (l : List (κ × α)) (k : κ) (v : α) :
    alook (aset l k v) k = some v := by
  induction l with
  | nil => simp [aset, alook]
  | cons hd t ih =>
    obtain ⟨k', a⟩ := hd
    by_cases hk : k' = k
    · simp [aset, hk, alook]
    · simp [aset, hk, alook, ih]

theorem alook_aset_of_ne {κ α : Type} [DecidableEq κ] (l : List (κ × α)) {j k : κ}
    (v : α) (h : j ≠ k) : alook (aset l k v) j = alook l j := by
  induction l with
  | nil =>
    have hkj : ¬(k = j) := fun he => h he.symm
    simp [aset, alook, hkj]
  | cons hd t ih =>
    obtain ⟨k', a⟩ := hd
    by_cases hk : k' = k
    · subst hk
      have hj : ¬(k' = j) := fun he => h he.symm
      simp [aset, alook, hj]
    · simp [aset, hk, alook, ih]

theorem aset_eq_of_alook {κ α : Type} [DecidableEq κ] {l : List (κ × α)} {k : κ} {v : α}
    (h : alook l k = some v) : aset l k v = l := by
  induction l with
  | nil => simp [alook] at h
  | cons hd t ih =>
    obtain ⟨k', a⟩ := hd
    by_cases hk : k' = k
    · subst hk
      simp [alook] at h
      simp [aset, h]
    · simp [alook, hk] at h
      simp [aset, hk, ih h]

theorem aupd_aupd {κ α : Type} [DecidableEq κ] (l : List (κ × α)) (k : κ) (f h : α → α) :
    aupd (aupd l k f) k h = aupd l k (fun a => h (f a)) := by
  induction l with
  | nil => rfl
  | cons hd t ih =>
    obtain ⟨k', a⟩ := hd
    by_cases hk : k' = k
    · simp [aupd, hk]
    · simp [aupd, hk, ih]

theorem aupd_eq_self {κ α : Type} [DecidableEq κ] {l : List (κ × α)} {k : κ} {f : α → α}
    (h : ∀ a, alook l k = some a → f a = a) : aupd l k f = l := by
  induction l with
  | nil => rfl
  | cons hd t ih =>
    obtain ⟨k', a⟩ := hd
    by_cases hk : k' = k
    · subst hk
      have := h a (by simp [alook])
      simp [aupd, this]
    · simp only [aupd, if_neg hk, List.cons.injEq, true_and]
      refine ih ?_
      intro a' ha'
      refine h a' ?_
      simpa [alook, hk] using ha'

theorem aupd_append_of_none {κ α : Type} [DecidableEq κ] {l : List (κ × α)} {k : κ}
    (a : α) (f : α → α) (h : alook l k = none) :
    aupd (l ++ [(k, a)]) k f = l ++ [(k, f a)] := by
  induction l with
  | nil => simp [aupd]
  | cons hd t ih =>
    obtain ⟨k', b⟩ := hd
    by_cases hk : k' = k
    · simp [alook, hk] at h
    · simp [alook, hk] at h
      simp [aupd, hk, ih h]

theorem apop_some_alook {κ α : Type} [DecidableEq κ] {l t : List (κ × α)} {k : κ} {a : α}
    (h : apop l k = some (a, t)) : alook l k = some a := by
  induction l generalizing t with
  | nil => simp [apop] at h
  | cons hd t' ih =>
    obtain ⟨k', b⟩ := hd
    by_cases hk : k' = k
    · subst hk
      simp [apop] at h
      simp [alook, h]
    · simp only [apop, if_neg hk, Option.map_eq_some'] at h
      obtain ⟨r, hr, he⟩ := h
      obtain ⟨r1, r2⟩ := r
      simp at he
      rw [he.1] at hr
      simp [alook, hk]
      exact ih hr

theorem apop_alook_of_ne {κ α : Type} [DecidableEq κ] {l t : List (κ × α)} {k j : κ} {a : α}
    (h : apop l k = some (a, t)) (hj : j ≠ k) : alook t j = alook l j := by
  induction l generalizing t with
  | nil => simp [apop] at h
  | cons hd t' ih =>
    obtain ⟨k', b⟩ := hd
    by_cases hk : k' = k
    · subst hk
      simp [apop] at h
      have hkj : ¬(k' = j) := fun he => hj he.symm
      rw [h.2.symm]
      simp [alook, hkj]
    · simp only [apop, if_neg hk, Option.map_eq_some'] at h
      obtain ⟨r, hr, he⟩ := h
      obtain ⟨r1, r2⟩ := r
      simp at he
      rw [he.1] at hr
      rw [← he.2]
      by_cases hkj : k' = j
      · simp [alook, hkj]
      · simp [alook, hkj]
        exact ih hr

/-! ### The coordinate-keyed graph of `src/Archive/graph_old3.py`

Keys are coordinate tuples; each entry holds the neighbour-coordinate
list and, optionally, the stored integer id.  `_id_index` maps ids back
to coordinates.  `dict.pop` and reading a missing key raise `KeyError`,
so the mutator returns `Option`; `none` is a raised exception. -/

/-- The `Graph` class of `src/Archive/graph_old3.py`. -/
structure GraphC where
  mapData : List (Coord × (List Coord × Option Nat))
  idIndex : List (Nat × Coord)
deriving DecidableEq

namespace GraphC

/-- Model of `id_to_coord` in `graph_old3.py`; the source returns `()` when the
id is unknown, modelled as `none` (the empty tuple is never a vertex
key, so both fail any later key lookup). -/
def id_to_coord (g : GraphC) (i : Nat) : Option Coord :=
  alook g.idIndex i

/-- Model of `coord_to_id` in `graph_old3.py`: `None` when the coordinate is
absent or carries no id (entry of length 1), else the stored id. -/
def coord_to_id (g : GraphC) (c : Coord) : Option Nat :=
  match alook g.mapData c with
  | none => none
  | some ent => ent.2

/-- The first statement of `add_vertex`: insert the coordinate with an
empty adjacency and no id when it is new. -/
def insertCoord (g : GraphC) (c : Coord) : List (Coord × (List Coord × Option Nat)) :=
  if (alook g.mapData c).isSome then g.mapData
  else g.mapData ++ [(c, ([], none))]

/-- Model of `add_vertex` in `graph_old3.py`: insert the coordinate, then attach
or update the optional id, revoking a stolen id from its previous owner
coordinate only in the branch where the target coordinate had no id
yet.  The impossible lookup failures and the `KeyError` of
`dict.pop`/`dict[...]` on a missing key are `none`. -/
def add_vertex (g : GraphC) (v : Coord × Option Nat) : Option GraphC :=
  match v.2 with
  | none => some ⟨insertCoord g v.1, g.idIndex⟩
  | some vid =>
    match alook (insertCoord g v.1) v.1 with
    | none => none
    | some ent =>
      match ent.2 with
      | none =>
        match alook g.idIndex vid with
        | some temp =>
          match alook (aupd (insertCoord g v.1) v.1 (fun e => (e.1, some vid))) temp with
          | none => none
          | some _ =>
            some ⟨aupd (aupd (insertCoord g v.1) v.1 (fun e => (e.1, some vid))) temp
                    (fun e => (e.1, none)),
                  aset g.idIndex vid v.1⟩
        | none =>
          some ⟨aupd (insertCoord g v.1) v.1 (fun e => (e.1, some vid)),
                aset g.idIndex vid v.1⟩
      | some temp =>
        match apop g.idIndex temp with
        | none => none
        | some r =>
          some ⟨aupd (insertCoord g v.1) v.1 (fun e => (e.1, some vid)),
                aset r.2 vid v.1⟩

/-- Resolution of an `add_edge` endpoint: a coordinate stands for
itself; an integer id goes through `id_to_coord`. -/
def resolveEnd (g : GraphC) (x : Coord ⊕ Nat) : Option Coord :=
  match x with
  | .inl c => some c
  | .inr i => g.id_to_coord i

/-- Model of `add_edge` in `graph_old3.py`: resolve both endpoints, then append
the edge only when both resolved coordinates are existing vertices; in
every other case nothing changes (the `()` sentinel of an unresolved id
fails the key-membership test). -/
def add_edge (g : GraphC) (e : (Coord ⊕ Nat) × (Coord ⊕ Nat)) : GraphC :=
  match resolveEnd g e.1, resolveEnd g e.2 with
  | some st, some en =>
    if (alook g.mapData st).isSome && (alook g.mapData en).isSome then
      ⟨aupd g.mapData st (fun ent => (ent.1 ++ [en], ent.2)), g.idIndex⟩
    else g
  | _, _ => g

end GraphC

theorem apop_of_alook {κ α : Type} [DecidableEq κ] {l : List (κ × α)} {k : κ} {a : α}
    (h : alook l k = some a) : ∃ t, apop l k = some (a, t) := by
  induction l with
  | nil => simp [alook] at h
  | cons hd t' ih =>
    obtain ⟨k', b⟩ := hd
    by_cases hk : k' = k
    · subst hk
      simp [alook] at h
      exact ⟨t', by simp [apop, h]⟩
    · simp [alook, hk] at h
      obtain ⟨t, ht⟩ := ih h
      exact ⟨(k', b) :: t, by simp [apop, hk, ht]⟩

theorem insertCoord_isSome (g : GraphC) (c : Coord) :
    (alook (GraphC.insertCoord g c) c).isSome = true := by
  unfold GraphC.insertCoord
  by_cases h : (alook g.mapData c).isSome = true
  · rw [if_pos h]
    exact h
  · rw [if_neg h]
    have hn : alook g.mapData c = none := by
      cases hx : alook g.mapData c with
      | none => rfl
      | some a => rw [hx] at h; simp at h
    rw [alook_append_of_none _ hn]
    simp [alook]

theorem insertCoord_of_isSome {g : GraphC} {c : Coord}
    (h : (alook g.mapData c).isSome = true) : GraphC.insertCoord g c = g.mapData := by
  unfold GraphC.insertCoord
  rw [if_pos h]

/-! ### Claim C2: identifier reassignment leaves a stale coordinate
binding

`add_vertex`'s else branch (target coordinate already owned an id)
updates `_id_index` but never clears the stolen id from its previous
owner's `_map_data` entry, so `coord_to_id` on the old coordinate still
returns the id — the revocation the claim (and the spec's bijection
invariant) requires does not happen. -/

/-- The failing run: bind id 1 to (0,0), id 2 to (1,1), then rebind id 1
to (1,1) (whose old id 2 triggers the else branch). -/
def c2run : Option GraphC :=
  ((GraphC.mk [] []).add_vertex ((0, 0), some 1)).bind fun g1 =>
    (g1.add_vertex ((1, 1), some 2)).bind fun g2 =>
      g2.add_vertex ((1, 1), some 1)

/-- C2 evaluated at the failing input: after rebinding id 1 to (1,1),
`coord_to_id (0,0)` still returns 1 — the old binding was not revoked —
while `id_to_coord 1` and `coord_to_id (1,1)` already point at (1,1),
so two distinct coordinates both claim id 1. -/
theorem add_vertex_stale_coord_binding :
    c2run.map (fun g =>
        (g.coord_to_id (0, 0), g.id_to_coord 1, g.coord_to_id (1, 1))) =
      some (some 1, some ((1 : ℚ), (1 : ℚ)), some 1) := by
  decide

/-! ### Claim C8: `add_edge` with an unknown endpoint is a silent no-op -/

/-- An endpoint fails to denote an existing vertex: either it does not
resolve at all, or it resolves to a coordinate that is not a key. -/
def endUnresolved (g : GraphC) (x : Coord ⊕ Nat) : Prop :=
  ∀ c, GraphC.resolveEnd g x = some c → (alook g.mapData c).isSome = false

/-- C8: in both graph implementations, `add_edge` with an endpoint that
is not an existing vertex (id-keyed form of `src/graph.py`) or does not
resolve to an existing vertex (coordinate/id form of
`src/Archive/graph_old3.py`) leaves the whole graph state unchanged. -/
theorem add_edge_unknown_endpoint_noop :
    (∀ (g : Graph) (e : Nat × Nat),
      g.is_vertex e.1 = false ∨ g.is_vertex e.2 = false → g.add_edge e = g) ∧
    (∀ (g : GraphC) (e : (Coord ⊕ Nat) × (Coord ⊕ Nat)),
      endUnresolved g e.1 ∨ endUnresolved g e.2 → g.add_edge e = g) := by
  constructor
  · intro g e h
    unfold Graph.add_edge
    have hc : ((alook g.mapData e.1).isSome && (alook g.mapData e.2).isSome) = false := by
      unfold Graph.is_vertex at h
      rcases h with h | h
      · simp [h]
      · simp [h]
    rw [hc]
    simp
  · intro g e h
    unfold GraphC.add_edge
    cases hr1 : GraphC.resolveEnd g e.1 with
    | none => rfl
    | some st =>
      cases hr2 : GraphC.resolveEnd g e.2 with
      | none => rfl
      | some en =>
        have hc : ((alook g.mapData st).isSome && (alook g.mapData en).isSome) = false := by
          rcases h with h | h
          · rw [h st hr1]
            simp
          · rw [h en hr2]
            simp
        dsimp only
        rw [hc]
        simp

/-- Witness for C8: an absent id endpoint in each implementation. -/
theorem add_edge_unknown_endpoint_noop_witness :
    ((Graph.mk [(1, ((0, 0), []))]).is_vertex 1 = false ∨
        (Graph.mk [(1, ((0, 0), []))]).is_vertex 5 = false) ∧
      (Graph.mk [(1, ((0, 0), []))]).add_edge (1, 5) = ⟨[(1, ((0, 0), []))]⟩ ∧
      (GraphC.mk [((0, 0), ([], none))] []).add_edge (Sum.inr 5, Sum.inl (0, 0)) =
        ⟨[((0, 0), ([], none))], []⟩ :=
  ⟨Or.inr (by decide),
    add_edge_unknown_endpoint_noop.1 ⟨[(1, ((0, 0), []))]⟩ (1, 5) (Or.inr (by decide)),
    add_edge_unknown_endpoint_noop.2 ⟨[((0, 0), ([], none))], []⟩
      (Sum.inr 5, Sum.inl (0, 0)) (Or.inl (fun _ hc => Option.noConfusion hc))⟩

/-! ### Claim C9: `add_vertex` is idempotent -/

/-- After a successful id-carrying `add_vertex`, the id index points the
id at the coordinate, and the coordinate's entry either carries the id
or (only when the revocation branch hit the same coordinate) no id. -/
theorem add_vertex_post {g : GraphC} {c : Coord} {vid : Nat} {g₁ : GraphC}
    (h : g.add_vertex (c, some vid) = some g₁) :
    alook g₁.idIndex vid = some c ∧
      ∃ x, alook g₁.mapData c = some (x, some vid) ∨
        alook g₁.mapData c = some (x, none) := by
  unfold GraphC.add_vertex at h
  simp only at h
  cases hent : alook (GraphC.insertCoord g c) c with
  | none => rw [hent] at h; simp at h
  | some ent =>
    rw [hent] at h
    dsimp only at h
    cases hv2 : ent.2 with
    | none =>
      rw [hv2] at h
      dsimp only at h
      cases hidx : alook g.idIndex vid with
      | none =>
        rw [hidx] at h
        dsimp only at h
        simp only [Option.some.injEq] at h
        subst h
        refine ⟨alook_aset_self _ _ _, ent.1, Or.inl ?_⟩
        have := alook_aupd_self (fun e => (e.1, some vid)) hent
        simpa using this
      | some temp =>
        rw [hidx] at h
        dsimp only at h
        cases htemp : alook (aupd (GraphC.insertCoord g c) c (fun e => (e.1, some vid))) temp with
        | none => rw [htemp] at h; simp at h
        | some entT =>
          rw [htemp] at h
          simp only [Option.some.injEq] at h
          subst h
          refine ⟨alook_aset_self _ _ _, ?_⟩
          by_cases hc : c = temp
          · subst hc
            refine ⟨ent.1, Or.inr ?_⟩
            have h1 := alook_aupd_self (fun e => (e.1, some vid)) hent
            have h2 := alook_aupd_self (fun e => (e.1, none)) h1
            simpa using h2
          · refine ⟨ent.1, Or.inl ?_⟩
            have h1 := alook_aupd_self (fun e => (e.1, some vid)) hent
            rw [alook_aupd_of_ne _ _ hc]
            simpa using h1
    | some temp0 =>
      rw [hv2] at h
      dsimp only at h
      cases hpop : apop g.idIndex temp0 with
      | none => rw [hpop] at h; simp at h
      | some r =>
        rw [hpop] at h
        simp only [Option.some.injEq] at h
        subst h
        refine ⟨alook_aset_self _ _ _, ent.1, Or.inl ?_⟩
        have := alook_aupd_self (fun e => (e.1, some vid)) hent
        simpa using this

/-- Adding `(c, vid)` when the entry already carries `vid` and the index
already maps `vid` to `c` reproduces the same state (the else branch
pops and re-adds the index binding, possibly moving it to the end, with
unchanged lookups). -/
theorem add_vertex_again_of_some {g₁ : GraphC} {c : Coord} {vid : Nat} {x : List Coord}
    (h1 : alook g₁.mapData c = some (x, some vid))
    (h2 : alook g₁.idIndex vid = some c) :
    ∃ g₂, g₁.add_vertex (c, some vid) = some g₂ ∧ g₂.mapData = g₁.mapData ∧
      ∀ i, alook g₂.idIndex i = alook g₁.idIndex i := by
  have hin : GraphC.insertCoord g₁ c = g₁.mapData :=
    insertCoord_of_isSome (by rw [h1]; rfl)
  obtain ⟨t, ht⟩ := apop_of_alook h2
  have hupd : aupd g₁.mapData c (fun e => (e.1, some vid)) = g₁.mapData := by
    apply aupd_eq_self
    intro a ha
    rw [h1] at ha
    simp only [Option.some.injEq] at ha
    rw [← ha]
  refine ⟨⟨g₁.mapData, aset t vid c⟩, ?_, rfl, ?_⟩
  · unfold GraphC.add_vertex
    simp only [hin, h1, ht, hupd]
  · intro i
    by_cases hi : i = vid
    · subst hi
      rw [alook_aset_self, h2]
    · rw [alook_aset_of_ne _ _ hi, apop_alook_of_ne ht hi]

/-- Adding `(c, vid)` when the entry carries no id but the index maps
`vid` to `c` (the state left by a first call whose revocation branch hit
`c` itself) again reproduces the same state. -/
theorem add_vertex_again_of_none {g₁ : GraphC} {c : Coord} {vid : Nat} {x : List Coord}
    (h1 : alook g₁.mapData c = some (x, none))
    (h2 : alook g₁.idIndex vid = some c) :
    ∃ g₂, g₁.add_vertex (c, some vid) = some g₂ ∧ g₂.mapData = g₁.mapData ∧
      ∀ i, alook g₂.idIndex i = alook g₁.idIndex i := by
  have hin : GraphC.insertCoord g₁ c = g₁.mapData :=
    insertCoord_of_isSome (by rw [h1]; rfl)
  have hset : alook (aupd g₁.mapData c (fun e => (e.1, some vid))) c =
      some (x, some vid) := by
    have := alook_aupd_self (fun e => (e.1, some vid)) h1
    simpa using this
  have hmap : aupd (aupd g₁.mapData c (fun e => (e.1, some vid))) c
      (fun e => (e.1, none)) = g₁.mapData := by
    rw [aupd_aupd]
    apply aupd_eq_self
    intro a ha
    rw [h1] at ha
    simp only [Option.some.injEq] at ha
    rw [← ha]
  have hidx : aset g₁.idIndex vid c = g₁.idIndex := aset_eq_of_alook h2
  refine ⟨⟨g₁.mapData, g₁.idIndex⟩, ?_, rfl, fun i => rfl⟩
  unfold GraphC.add_vertex
  simp only [hin, h1, h2, hset, hmap, hidx]

/-- C9: `add_vertex` is idempotent in both implementations: calling it
twice with the same argument yields the same graph state (identical map
data; identical identifier-mapping lookups) as calling it once. -/
theorem add_vertex_idempotent :
    (∀ (g : Graph) (v : ℚ × ℚ × Nat),
      (g.add_vertex v).add_vertex v = g.add_vertex v) ∧
    (∀ (g : GraphC) (v : Coord × Option Nat) (g₁ : GraphC),
      g.add_vertex v = some g₁ →
      ∃ g₂, g₁.add_vertex v = some g₂ ∧ g₂.mapData = g₁.mapData ∧
        ∀ i, alook g₂.idIndex i = alook g₁.idIndex i) := by
  constructor
  · intro g v
    unfold Graph.add_vertex
    by_cases hm : alook g.mapData v.2.2 = none
    · rw [if_pos hm]
      have h2 : alook (g.mapData ++ [(v.2.2, ((v.1, v.2.1), []))]) v.2.2 =
          some ((v.1, v.2.1), []) := by
        rw [alook_append_of_none _ hm]
        simp [alook]
      simp only [h2]
      rw [if_neg (by simp)]
      rw [aupd_append_of_none _ _ hm]
    · rw [if_neg hm]
      obtain ⟨a, ha⟩ : ∃ a, alook g.mapData v.2.2 = some a := by
        cases hx : alook g.mapData v.2.2 with
        | none => exact absurd hx hm
        | some a => exact ⟨a, rfl⟩
      have h2 := alook_aupd_self (fun ent => ((v.1, v.2.1), ent.2)) ha
      simp only [h2]
      rw [if_neg (by simp)]
      rw [aupd_aupd]
  · intro g v g₁ hg₁
    obtain ⟨c, optid⟩ := v
    cases optid with
    | none =>
      unfold GraphC.add_vertex at hg₁
      simp only [Option.some.injEq] at hg₁
      subst hg₁
      refine ⟨⟨GraphC.insertCoord g c, g.idIndex⟩, ?_, rfl, fun i => rfl⟩
      unfold GraphC.add_vertex
      simp only [Option.some.injEq]
      rw [insertCoord_of_isSome (insertCoord_isSome g c)]
    | some vid =>
      obtain ⟨hidx, x, hmap | hmap⟩ := add_vertex_post hg₁
      · exact add_vertex_again_of_some hmap hidx
      · exact add_vertex_again_of_none hmap hidx

/-- Witness for C9's `graph_old3` half at a concrete input. -/
theorem add_vertex_idempotent_witness :
    (GraphC.mk [] []).add_vertex ((0, 0), some 1) =
        some ⟨[((0, 0), ([], some 1))], [(1, (0, 0))]⟩ ∧
      ∃ g₂, (GraphC.mk [((0, 0), ([], some 1))] [(1, (0, 0))]).add_vertex ((0, 0), some 1) =
          some g₂ ∧
        g₂.mapData = [((0, 0), ([], some 1))] ∧
        ∀ i, alook g₂.idIndex i = alook ([(1, ((0 : ℚ), (0 : ℚ)))]) i :=
  ⟨by decide,
    add_vertex_idempotent.2 ⟨[], []⟩ ((0, 0), some 1)
      ⟨[((0, 0), ([], some 1))], [(1, (0, 0))]⟩ (by decide)⟩

end RouteFinder
